import Mathlib

/-!
Verification development for the Piece knowledge-base core.

The definitions below are shallow embeddings of the Python sources of the
repository (src/indexing and src/retrieval).  Text is modelled as a list of
Unicode codepoints (`List Char`), which matches Python `str` indexing and
slicing.  Machine floats are modelled by exact rationals (`ℚ`); database
tables are modelled by lists of typed rows; SQL statements are modelled by
the corresponding list transformations.  Each section names the source file
and function it embeds.
-/

set_option maxRecDepth 8192

namespace PieceKB

/-! ## Python string primitives

Whitespace as recognised by Python `str.strip` and the regex class `\s`
(ASCII range; the sources only feed ASCII/CJK text where the extra Unicode
space characters do not occur). -/

def pyIsSpace (c : Char) : Bool :=
  c = ' ' || c = '\t' || c = '\n' || c = '\r' || c = '\x0b' || c = '\x0c'

/-- Python `str.strip()` on a list of codepoints. -/
def pyStrip (l : List Char) : List Char :=
  ((l.dropWhile pyIsSpace).reverse.dropWhile pyIsSpace).reverse

/-- Python slice `text[a:b]` (when `0 ≤ a ≤ b`). -/
def slice (l : List Char) (a b : ℕ) : List Char :=
  (l.take b).drop a

/-- Python `text.split('\n')`. -/
def splitLines (l : List Char) : List (List Char) :=
  l.splitOn '\n'

/-- Python `hay.rfind(pat)`: greatest index at which `pat` occurs in `hay`,
`none` when it does not occur. -/
def rfindSub (hay pat : List Char) : Option ℕ :=
  ((List.range (hay.length + 1)).filter (fun i => pat.isPrefixOf (hay.drop i))).max?

/-- Stable insertion sort with a boolean `le`, modelling Python's stable
`list.sort`/SQL `ORDER BY`: an element is inserted before the first
element it compares `le` to, so equal elements keep their original
order. -/
def orderedInsert (le : α → α → Bool) (a : α) : List α → List α
  | [] => [a]
  | b :: l => if le a b then a :: b :: l else b :: orderedInsert le a l

def sortBy (le : α → α → Bool) : List α → List α
  | [] => []
  | a :: l => orderedInsert le a (sortBy le l)

/-!
## src/indexing/services/chunking/utils.py — protected regions

`find_table_boundaries`: a table line is a line whose stripped form starts
and ends with `|` and contains at least two `|`.
-/

def isTableLine (line : List Char) : Bool :=
  let s := pyStrip line
  s.head? = some '|' && s.getLast? = some '|' && 2 ≤ s.count '|'

/-- The scan of `find_table_boundaries`: walk the lines keeping the
in-table flag, the start of the current table and the position of the
current line; flush a trailing table to the full text length. -/
def tableBoundsAux (textLen : ℕ) : List (List Char) → Bool → ℕ → ℕ → List (ℕ × ℕ)
  | [], inTable, tStart, _ => if inTable then [(tStart, textLen)] else []
  | line :: rest, inTable, tStart, linePos =>
    let tl := isTableLine line
    if tl && !inTable then
      tableBoundsAux textLen rest true linePos (linePos + line.length + 1)
    else if !tl && inTable then
      (tStart, linePos) :: tableBoundsAux textLen rest false tStart (linePos + line.length + 1)
    else
      tableBoundsAux textLen rest inTable tStart (linePos + line.length + 1)

def findTableBoundaries (text : List Char) : List (ℕ × ℕ) :=
  tableBoundsAux text.length (splitLines text) false 0 0

/-!
`find_formula_boundaries`: block formulas are the non-greedy matches of
`\$\$[\s\S]+?\$\$`, inline formulas the matches of
`(?<!\$)\$(?!\$)([^\$\n]+?)\$(?!\$)`, both scanned left to right.
-/

/-- Index of the first occurrence of two adjacent `$` characters. -/
def firstDD : List Char → Option ℕ
  | '$' :: '$' :: _ => some 0
  | _ :: rest => (firstDD rest).map (· + 1)
  | [] => none

/-- Scan for block formulas `$$…$$` (non-greedy, content at least one
character).  `suf` is the unread suffix, `off` its absolute position; the
fuel argument dominates the number of scanning steps. -/
def blockFormulaAux : ℕ → List Char → ℕ → List (ℕ × ℕ)
  | 0, _, _ => []
  | fuel + 1, suf, off =>
    match firstDD suf with
    | none => []
    | some i =>
      match firstDD (suf.drop (i + 3)) with
      | none => []
      | some j =>
        (off + i, off + i + 3 + j + 2) ::
          blockFormulaAux fuel (suf.drop (i + 3 + j + 2)) (off + i + 3 + j + 2)

/-- Scan for inline formulas `$…$` with the look-around exclusions of the
source regex.  `prevDollar` carries the look-behind character. -/
def inlineFormulaAux : ℕ → List Char → ℕ → Bool → List (ℕ × ℕ)
  | 0, _, _, _ => []
  | _ + 1, [], _, _ => []
  | fuel + 1, c :: rest, off, prevDollar =>
    if c = '$' && !prevDollar && rest.head? ≠ some '$' then
      match rest.findIdx? (· = '$') with
      | some m =>
        if (rest.take m).all (· ≠ '\n') && rest[m + 1]? ≠ some '$' then
          (off, off + m + 2) ::
            inlineFormulaAux fuel (rest.drop (m + 1)) (off + m + 2) true
        else
          inlineFormulaAux fuel rest (off + 1) (c = '$')
      | none => inlineFormulaAux fuel rest (off + 1) (c = '$')
    else
      inlineFormulaAux fuel rest (off + 1) (c = '$')

def findFormulaBoundaries (text : List Char) : List (ℕ × ℕ) :=
  blockFormulaAux (text.length + 1) text 0 ++
    inlineFormulaAux (text.length + 1) text 0 false

/-- `is_safe_split_point`: `pos` lies strictly inside no protected region. -/
def isSafeSplitPoint (pos : ℕ) (bounds : List (ℕ × ℕ)) : Bool :=
  bounds.all (fun b => !(decide (b.1 < pos) && decide (pos < b.2)))

/-- The protected regions of `recursive_split`: tables and formulas, sorted
by start position (the sort is stable and only membership matters for the
safety check). -/
def protectedBoundaries (text : List Char) : List (ℕ × ℕ) :=
  sortBy (fun a b => a.1 ≤ b.1)
    (findTableBoundaries text ++ findFormulaBoundaries text)

/-! ### `recursive_split` -/

/-- `SEPARATORS`, in priority order (high priority first). -/
def SEPARATORS : List (List Char) :=
  [['\n', '\n'], ['\n'], ['。'], ['！'], ['？'], ['.'], ['!'], ['?'],
   ['；'], [';'], ['，'], [','], [' ']]

/-- The candidate triples `(priority, distance, pos)` collected by
`find_split_point`: for each separator, the last occurrence inside the
200-character window before the target whose cut point is in range and
outside every protected region. -/
def splitCandidates (seg : List Char) (target off : ℕ)
    (bounds : List (ℕ × ℕ)) : List (ℕ × ℕ × ℕ) :=
  let searchStart := target - 200
  let searchRange := slice seg searchStart target
  SEPARATORS.enum.filterMap (fun pe =>
    match rfindSub searchRange pe.2 with
    | none => none
    | some p =>
      let actual := searchStart + p + pe.2.length
      if 0 < actual ∧ actual < seg.length then
        if isSafeSplitPoint (off + actual) bounds then
          some (pe.1, target - actual, actual)
        else none
      else none)

/-- Sort key of the candidate selection: for close cuts (distance < 50) the
separator priority dominates, otherwise the distance does. -/
def candidateKey (c : ℕ × ℕ × ℕ) : ℕ × ℕ × ℕ :=
  if c.2.1 < 50 then (0, c.1, c.2.1) else (1, c.2.1, c.1)

def keyLt (a b : ℕ × ℕ × ℕ) : Bool :=
  a.1 < b.1 || (a.1 = b.1 &&
    (a.2.1 < b.2.1 || (a.2.1 = b.2.1 && a.2.2 < b.2.2)))

/-- First element of minimal key, as delivered by Python's stable sort
followed by taking element 0. -/
def pickMin (c : ℕ × ℕ × ℕ) (rest : List (ℕ × ℕ × ℕ)) : ℕ × ℕ × ℕ :=
  rest.foldl
    (fun best x => if keyLt (candidateKey x) (candidateKey best) then x else best) c

/-- The stepping fallback positions `range(target, max(0, target-400), -10)`. -/
def stepPositions (target : ℕ) : List ℕ :=
  (List.range ((target - (target - 400) + 9) / 10)).map (fun i => target - 10 * i)

/-- `find_split_point(text, target_size, offset)` of `recursive_split`,
with the protected regions passed explicitly (the Python closure reads them
from the enclosing scope). -/
def findSplitPoint (seg : List Char) (target off : ℕ)
    (bounds : List (ℕ × ℕ)) : ℕ :=
  match splitCandidates seg target off bounds with
  | c :: rest => (pickMin c rest).2.2
  | [] =>
    match (stepPositions target).find? (fun p => isSafeSplitPoint (off + p) bounds) with
    | some p => p
    | none => target

/-- The splitting loop of `recursive_split`, producing the `(start, end)`
ranges of the emitted slices (the chunk list is the stripped nonempty
slices of these ranges, see `recursiveSplit`).  The fuel dominates the
number of iterations; `none` means the fuel ran out. -/
def splitRangesLoop (bounds : List (ℕ × ℕ)) (text : List Char) (cs ov : ℕ) :
    ℕ → ℕ → Option (List (ℕ × ℕ))
  | 0, _ => none
  | fuel + 1, start =>
    if start < text.length then
      if text.length ≤ start + cs then some [(start, text.length)]
      else
        let sp := findSplitPoint (text.drop start) cs start bounds
        let ae := start + sp
        let ns0 := ae - ov
        let ns := if ns0 + cs ≤ ae ∧ ae < text.length then ae else ns0
        (splitRangesLoop bounds text cs ov fuel ns).map (fun l => (start, ae) :: l)
    else some []

/-- The ranges produced by `recursive_split` on the (already stripped) text
`t` with `len(t) > chunk_size`; fuel `t.length + 1` (the loop advances
`start` by at least one position per iteration for the parameter values the
repository uses, see the termination theorem). -/
def recursiveSplitRanges (t : List Char) (cs ov : ℕ) : Option (List (ℕ × ℕ)) :=
  splitRangesLoop (protectedBoundaries t) t cs ov (t.length + 1) 0

/-- `recursive_split(text, chunk_size, overlap)`. -/
def recursiveSplit (text : List Char) (cs ov : ℕ) : List (List Char) :=
  let t := pyStrip text
  if t = [] then []
  else if t.length ≤ cs then [t]
  else
    ((recursiveSplitRanges t cs ov).getD []).filterMap (fun r =>
      let c := pyStrip (slice t r.1 r.2)
      if c = [] then none else some c)

/-- `clean_heading`: drop leading `#`, strip, keep only CJK, ASCII
letters/digits, parentheses and whitespace, strip again. -/
def allowedHeadChar (c : Char) : Bool :=
  (0x4e00 ≤ c.toNat && c.toNat ≤ 0x9fa5) ||
    ('a' ≤ c && c ≤ 'z') || ('A' ≤ c && c ≤ 'Z') || ('0' ≤ c && c ≤ '9') ||
    c = '(' || c = ')' || c = '（' || c = '）' || pyIsSpace c

def cleanHeading (l : List Char) : List Char :=
  pyStrip ((pyStrip (l.dropWhile (· = '#'))).filter allowedHeadChar)

/-!
## src/indexing/services/chunking/heading_chunker.py

The section headers are found with `re.finditer(r"^##\s+(.+)$", content,
re.MULTILINE)` (and the `###` variant).  The match at a line start `i`
consists of `hashes` hash characters, a nonempty whitespace run, and a
group of non-newline characters running to the end of its line; when the
whitespace runs to the end of the text the greedy `\s+` backtracks to the
last non-newline whitespace character.
-/

structure HMatch where
  start : ℕ
  group : List Char
  stop : ℕ
deriving Repr, DecidableEq

def matchHeadingAt (text : List Char) (i hashes : ℕ) : Option HMatch :=
  let u := text.drop i
  if (List.replicate hashes '#').isPrefixOf u then
    let u2 := u.drop hashes
    let ws := u2.takeWhile pyIsSpace
    let k := ws.length
    if k = 0 then none
    else
      let rest := u2.drop k
      if rest ≠ [] then
        let grp := rest.takeWhile (· ≠ '\n')
        some ⟨i, grp, i + hashes + k + grp.length⟩
      else
        match ((List.range k).filter
            (fun q => 0 < q && ws.getD q '\n' ≠ '\n')).max? with
        | none => none
        | some q =>
          let grp := (u2.drop q).takeWhile (· ≠ '\n')
          some ⟨i, grp, i + hashes + q + grp.length⟩
  else none

/-- Positions at which `^` matches in MULTILINE mode: 0 and every position
following a newline. -/
def lineStarts (text : List Char) : List ℕ :=
  0 :: text.enum.filterMap (fun pc => if pc.2 = '\n' then some (pc.1 + 1) else none)

/-- `re.finditer` scan: try each line start in order, skipping the ones
consumed by an earlier match. -/
def scanHeadingsAux (text : List Char) (hashes : ℕ) :
    List ℕ → ℕ → List HMatch
  | [], _ => []
  | i :: rest, s =>
    if i < s then scanHeadingsAux text hashes rest s
    else
      match matchHeadingAt text i hashes with
      | none => scanHeadingsAux text hashes rest s
      | some m => m :: scanHeadingsAux text hashes rest m.stop

def scanHeadings (text : List Char) (hashes : ℕ) : List HMatch :=
  scanHeadingsAux text hashes (lineStarts text) 0

/-- A chunk as produced by the chunker set: a `doc_title` and the chunk
text. -/
structure MdChunk where
  docTitle : String
  chunkText : List Char
deriving Repr, DecidableEq

/-- The first 10 characters of the stripped text with newlines replaced by
spaces, used as a sub-title suffix. -/
def subTitleOf (ct : List Char) : String :=
  String.mk (((pyStrip ct).take 10).map (fun c => if c = '\n' then ' ' else c))

/-- `HeadingChunker._split_by_length`. -/
def splitByLength (content : List Char) (baseName : String) (cs : ℕ) :
    List MdChunk :=
  (recursiveSplit content cs 150).filterMap (fun ct =>
    if pyStrip ct ≠ [] then
      some ⟨baseName ++ "_" ++ subTitleOf ct, pyStrip ct⟩
    else none)

/-- Pair every match with the start of the next one (or the text length),
giving the section ranges of the chunker loops. -/
def sectionRanges (ms : List HMatch) (len : ℕ) : List (HMatch × ℕ) :=
  ms.zip ((ms.drop 1).map HMatch.start ++ [len])

/-- `HeadingChunker._split_large_chunk`: the over-2000-character section is
split by `###`, with recursive splitting of oversized pieces. -/
def splitLargeChunk (chunkContent : List Char) (baseName h2name : String) :
    List MdChunk :=
  let h3s := scanHeadings chunkContent 3
  match h3s with
  | [] =>
    (recursiveSplit chunkContent 800 150).map (fun ct =>
      ⟨baseName ++ "_" ++ h2name ++ "_" ++ subTitleOf ct, pyStrip ct⟩)
  | hd :: _ =>
    let introChunks :=
      if 0 < hd.start then
        let introContent := pyStrip (chunkContent.take hd.start)
        if introContent ≠ [] then
          if 800 < introContent.length then
            (recursiveSplit introContent 800 150).map (fun ct =>
              ⟨baseName ++ "_" ++ h2name ++ "_" ++ subTitleOf ct, pyStrip ct⟩)
          else [⟨baseName ++ "_" ++ h2name, introContent⟩]
        else []
      else []
    introChunks ++ (sectionRanges h3s chunkContent.length).flatMap (fun ss =>
      let h3name := String.mk (cleanHeading ss.1.group)
      let h3content := pyStrip (slice chunkContent ss.1.start ss.2)
      if h3content ≠ [] then
        if 800 < h3content.length then
          (recursiveSplit h3content 800 150).enum.map (fun jct =>
            if jct.1 = 0 then
              ⟨baseName ++ "_" ++ h2name ++ "_" ++ h3name, pyStrip jct.2⟩
            else
              ⟨baseName ++ "_" ++ h2name ++ "_" ++ h3name ++ "_" ++ subTitleOf jct.2,
                pyStrip jct.2⟩)
        else [⟨baseName ++ "_" ++ h2name ++ "_" ++ h3name, h3content⟩]
      else [])

/-- The per-section step of `HeadingChunker.chunk`'s main loop. -/
def h2SectionChunks (content : List Char) (baseName : String)
    (ss : HMatch × ℕ) : List MdChunk :=
  let h2name := String.mk (cleanHeading ss.1.group)
  let chunkContent := pyStrip (slice content ss.1.start ss.2)
  if chunkContent = [] then []
  else if 2000 < chunkContent.length then
    splitLargeChunk chunkContent baseName h2name
  else [⟨baseName ++ "_" ++ h2name, chunkContent⟩]

/-- `HeadingChunker.chunk(content, base_name)`. -/
def headingChunk (content : List Char) (baseName : String) : List MdChunk :=
  match scanHeadings content 2 with
  | [] => splitByLength content baseName 800
  | hd :: tl =>
    let introChunks :=
      if 0 < hd.start then
        let introContent := pyStrip (content.take hd.start)
        if introContent ≠ [] then
          [⟨baseName ++ "_概述", introContent⟩]
        else []
      else []
    introChunks ++
      (sectionRanges (hd :: tl) content.length).flatMap
        (h2SectionChunks content baseName)

/-!
## Database model

A relational snapshot of `kb.db` as maintained by `src/indexing/database.py`:
the `files` and `chunks` tables, the `vec_chunks` virtual table and the
working-copy files keyed by file id.  Embedding blobs are byte lists.
`nextId` models SQLite's monotonically increasing rowid for `chunks`
(`lastrowid` after an insert).  Each Python `with get_db_cursor()` block is
one transaction (commit on exit, rollback on exception) and is modelled as
one atomic state transformation.
-/

structure FileRow where
  id : ℕ
  filename : String
deriving Repr, DecidableEq

structure ChunkRow where
  id : ℕ
  fileId : ℕ
  docTitle : String
  chunkText : String
  embedding : List ℕ
deriving Repr, DecidableEq

structure VecRow where
  chunkId : ℕ
  embedding : List ℕ
deriving Repr, DecidableEq

structure DB where
  files : List FileRow
  chunks : List ChunkRow
  vecChunks : List VecRow
  working : List (ℕ × String)
  nextId : ℕ
deriving Repr, DecidableEq

/-!
## src/indexing/repositories/chunk_repository.py
-/

/-- `ChunkRepository.insert`: one transaction inserting the `chunks` row
(the FTS index follows by trigger) and the `vec_chunks` row with the same
`chunk_id` and the same embedding blob.  Returns the new chunk id. -/
def repoInsert (db : DB) (fileId : ℕ) (docTitle chunkText : String)
    (embedding : List ℕ) : DB × ℕ :=
  (⟨db.files,
    db.chunks ++ [⟨db.nextId, fileId, docTitle, chunkText, embedding⟩],
    db.vecChunks ++ [⟨db.nextId, embedding⟩],
    db.working, db.nextId + 1⟩, db.nextId)

/-- `ChunkRepository.update_content`: update text and embedding of the
`chunks` row and the embedding of the `vec_chunks` row in one
transaction. -/
def repoUpdateContent (db : DB) (chunkId : ℕ) (chunkText : String)
    (embedding : List ℕ) : DB :=
  { db with
    chunks := db.chunks.map (fun c =>
      if c.id = chunkId then { c with chunkText := chunkText, embedding := embedding }
      else c),
    vecChunks := db.vecChunks.map (fun v =>
      if v.chunkId = chunkId then { v with embedding := embedding } else v) }

/-- `ChunkRepository.delete_with_vectors`: delete the `vec_chunks` row then
the `chunks` row in one transaction. -/
def repoDeleteWithVectors (db : DB) (chunkId : ℕ) : DB :=
  { db with
    chunks := db.chunks.filter (fun c => c.id ≠ chunkId),
    vecChunks := db.vecChunks.filter (fun v => v.chunkId ≠ chunkId) }

/-- `ChunkRepository.delete_by_file_id`: delete the `vec_chunks` rows whose
`chunk_id` belongs to a chunk of the file, then all the file's `chunks`
rows, in one transaction. -/
def repoDeleteByFileId (db : DB) (fileId : ℕ) : DB :=
  let ids := (db.chunks.filter (fun c => c.fileId = fileId)).map ChunkRow.id
  { db with
    chunks := db.chunks.filter (fun c => c.fileId ≠ fileId),
    vecChunks := db.vecChunks.filter (fun v => ¬ v.chunkId ∈ ids) }

/-- One row of a batch insert: `(doc_title, chunk_text, embedding)`. -/
abbrev BatchRow := String × String × List ℕ

/-- `ChunkRepository.batch_insert` (and one write batch of
`insert_chunks_batch` in src/indexing/services/processor.py): sequential
`chunks` inserts followed by the `executemany` into `vec_chunks`, one
transaction per batch.  The rows get the consecutive ids starting at
`db.nextId`. -/
def newChunkRows (fileId startId : ℕ) : List BatchRow → List ChunkRow
  | [] => []
  | r :: rs => ⟨startId, fileId, r.1, r.2.1, r.2.2⟩ :: newChunkRows fileId (startId + 1) rs

def newVecRows (startId : ℕ) : List BatchRow → List VecRow
  | [] => []
  | r :: rs => ⟨startId, r.2.2⟩ :: newVecRows (startId + 1) rs

def repoBatchInsert (db : DB) (fileId : ℕ) (rows : List BatchRow) : DB :=
  { db with
    chunks := db.chunks ++ newChunkRows fileId db.nextId rows,
    vecChunks := db.vecChunks ++ newVecRows db.nextId rows,
    nextId := db.nextId + rows.length }

/-- Split a list into batches of `n` (the write loop
`for batch_start in range(0, total, batch_size)`). -/
def batched (n : ℕ) (l : List α) : List (List α) :=
  (List.range ((l.length + n - 1) / n)).map (fun b => (l.drop (b * n)).take n)

/-- `insert_chunks_batch(file_id, chunks, embeddings_list)` of
src/indexing/services/processor.py: `zip` the chunk dicts with the
embedding vectors and write them in per-batch transactions of 50. -/
def insertChunksBatch (db : DB) (fileId : ℕ) (chunks : List (String × String))
    (embeddings : List (List ℕ)) : DB :=
  let rows : List BatchRow := (chunks.zip embeddings).map (fun p => (p.1.1, p.1.2, p.2))
  (batched 50 rows).foldl (fun d b => repoBatchInsert d fileId b) db

/-!
## src/retrieval/tools/get_docs.py

The SQL query joins `chunks` with `files`, filters by the requested
doc_titles and computes `COUNT(*) OVER (PARTITION BY c.file_id)` and
`ROW_NUMBER() OVER (PARTITION BY c.file_id ORDER BY c.id)`.  Per SQL
semantics the `WHERE` filter is applied before the window functions, so
both windows range over the *filtered* rows only.  The result mapping is
keyed by doc_title (a later row overwrites an earlier one) and missing
titles map to `none`. -/

structure DocInfo where
  chunkId : ℕ
  fileId : ℕ
  filename : String
  docTitle : String
  chunkText : String
  totalChunksInFile : ℕ
  chunkIndexInFile : ℕ
deriving Repr, DecidableEq

def getDocsRows (db : DB) (docTitles : List String) : List DocInfo :=
  let joined := db.chunks.filterMap (fun c =>
    (db.files.find? (fun f => f.id = c.fileId)).map (fun f => (c, f)))
  let filtered := joined.filter (fun cf => cf.1.docTitle ∈ docTitles)
  filtered.map (fun cf =>
    let part := filtered.filter (fun cf2 => cf2.1.fileId = cf.1.fileId)
    { chunkId := cf.1.id
      fileId := cf.1.fileId
      filename := cf.2.filename
      docTitle := cf.1.docTitle
      chunkText := cf.1.chunkText
      totalChunksInFile := part.length
      chunkIndexInFile := 1 + (part.filter (fun cf2 => cf2.1.id < cf.1.id)).length })

def getDocs (db : DB) (docTitles : List String) : List (String × Option DocInfo) :=
  let rows := getDocsRows db docTitles
  docTitles.map (fun t => (t, (rows.reverse.find? (fun r => r.docTitle = t))))

/-- The number of chunks a file actually has (what the column name
`total_chunks_in_file` and the docstring of `get_docs` promise). -/
def fileChunkCount (db : DB) (fileId : ℕ) : ℕ :=
  (db.chunks.filter (fun c => c.fileId = fileId)).length

/-- The 1-based position of a chunk among all of its file's chunks ordered
by chunk id (what `chunk_index_in_file` promises). -/
def fileChunkIndex (db : DB) (fileId chunkId : ℕ) : ℕ :=
  1 + ((db.chunks.filter (fun c => c.fileId = fileId)).filter
    (fun c => c.id < chunkId)).length

/-!
## src/indexing/services/chunk_service.py — working file and deletion
-/

def lstripHashStrip (s : String) : String :=
  String.mk (pyStrip (s.toList.dropWhile (· = '#')))

/-- The lines `rebuild_working_file` emits for one chunk: the text verbatim
when it already starts with `#`, otherwise a heading derived from the
underscore-split `doc_title` followed by the text. -/
def renderChunkLines (c : ChunkRow) : String :=
  if (pyStrip c.chunkText.toList).head? = some '#' then
    c.chunkText ++ "\n\n"
  else
    let parts := c.docTitle.splitOn "_"
    let heading :=
      if parts.length = 2 then
        "## " ++ lstripHashStrip (parts.getD 1 "") ++ "\n\n"
      else if 3 ≤ parts.length then
        "### " ++ lstripHashStrip (parts.getLastD "") ++ "\n\n"
      else
        "## " ++ lstripHashStrip c.docTitle ++ "\n\n"
    heading ++ c.chunkText ++ "\n\n"

/-- `SELECT … FROM chunks WHERE file_id = ? ORDER BY id`. -/
def chunksOfFileOrdered (db : DB) (fileId : ℕ) : List ChunkRow :=
  sortBy (fun a b => a.id ≤ b.id) (db.chunks.filter (fun c => c.fileId = fileId))

def setWorking (db : DB) (fileId : ℕ) (s : String) : DB :=
  { db with working := (db.working.filter (fun w => w.1 ≠ fileId)) ++ [(fileId, s)] }

/-- `rebuild_working_file(file_id)`: regenerate the working copy from the
current chunks in id order; truncate it when no chunks remain; no-op when
the file row is gone. -/
def rebuildWorkingFile (db : DB) (fileId : ℕ) : DB :=
  match db.files.find? (fun f => f.id = fileId) with
  | none => db
  | some _ =>
    let cs := chunksOfFileOrdered db fileId
    if cs = [] then setWorking db fileId ""
    else setWorking db fileId (String.join (cs.map renderChunkLines))

/-- `file_service.delete_file(file_id)`: delete the `vec_chunks` rows of
the file's chunks, the file row (its chunks cascade via the foreign key)
and the working file.  Returns whether the file existed. -/
def deleteFile (db : DB) (fileId : ℕ) : DB × Bool :=
  match db.files.find? (fun f => f.id = fileId) with
  | none => (db, false)
  | some _ =>
    let ids := (db.chunks.filter (fun c => c.fileId = fileId)).map ChunkRow.id
    (⟨db.files.filter (fun f => f.id ≠ fileId),
      db.chunks.filter (fun c => c.fileId ≠ fileId),
      db.vecChunks.filter (fun v => ¬ v.chunkId ∈ ids),
      db.working.filter (fun w => w.1 ≠ fileId),
      db.nextId⟩, true)

structure DeleteChunkResult where
  success : Bool
  fileId : Option ℕ
  fileDeleted : Bool
deriving Repr, DecidableEq

/-- `chunk_service.delete_chunk(chunk_id)`: when the chunk is the last one
of its file, delete the whole file; otherwise delete the chunk's
`vec_chunks` and `chunks` rows and rebuild the working file. -/
def deleteChunk (db : DB) (chunkId : ℕ) : DB × DeleteChunkResult :=
  match db.chunks.find? (fun c => c.id = chunkId) with
  | none => (db, ⟨false, none, false⟩)
  | some c =>
    let remaining := (db.chunks.filter (fun c2 => c2.fileId = c.fileId)).length
    if remaining = 1 then
      let r := deleteFile db c.fileId
      (r.1, ⟨r.2, some c.fileId, true⟩)
    else
      let db' : DB :=
        { db with
          chunks := db.chunks.filter (fun c2 => c2.id ≠ chunkId),
          vecChunks := db.vecChunks.filter (fun v => v.chunkId ≠ chunkId) }
      (rebuildWorkingFile db' c.fileId, ⟨true, some c.fileId, false⟩)

/-!
## src/indexing/services/rate_limiter.py

`acquire` runs under the instance mutex; we model one call by its entry
clock value `now`, the stored `last_request_time`, and a slack `δ ≥ 0`
accounting for scheduler overshoot of `asyncio.sleep` plus the time until
the final `time.time()` call.  The function returns the recorded
`last_request_time`. -/

structure RateLimiter where
  rpm : ℚ
  minInterval : ℚ
deriving Repr, DecidableEq

/-- `RateLimiter.__init__(rpm)`. -/
def RateLimiter.init (rpm : ℚ) : RateLimiter :=
  ⟨rpm, 60 / rpm⟩

/-- `get_rate_limiter()`: the process-wide singleton, created with
RPM = 20. -/
def getRateLimiter : RateLimiter :=
  RateLimiter.init 20

/-- The timestamp recorded by `RateLimiter.acquire`: when the last request
is more recent than the minimum interval the coroutine sleeps for the
remainder before stamping. -/
def acquireRecord (rl : RateLimiter) (last : Option ℚ) (now slack : ℚ) : ℚ :=
  let minWait := 60 / rl.rpm
  match last with
  | none => now + slack
  | some t =>
    if now - t < minWait then now + (minWait - (now - t)) + slack
    else now + slack

/-!
## src/indexing/services/processor.py — per-batch embedding retry

`process_task` wraps each batch's `embed_documents` call in
`for retry in range(3)`, retrying only errors whose lowercased message
contains "429", "403" or "rate limit", sleeping `5·(retry+1)` seconds
before the retry; any other error (or the third rate-limit failure)
re-raises, which the task-level handler turns into task `failed` and file
status `error`. -/

inductive Attempt where
  | ok (embs : List (List ℚ))
  | err (msg : String)
deriving Repr, DecidableEq

/-- Python `pat in hay` on strings. -/
def containsSub (hay pat : List Char) : Bool :=
  (rfindSub hay pat).isSome

def isRateLimitError (msg : String) : Bool :=
  let m := msg.toList.map Char.toLower
  containsSub m "429".toList || containsSub m "403".toList ||
    containsSub m "rate limit".toList

def maxRetries : ℕ := 3

def retryDelay : ℕ := 5

structure RetryTrace where
  result : Except String (List (List ℚ))
  attemptsUsed : ℕ
  waits : List ℕ
deriving Repr

/-- The retry loop, `attempts n` being the outcome of the `n`-th call to
`embed_documents` for this batch.  The budget starts at `maxRetries`; the
loop always breaks with a result or re-raises before exhausting it. -/
def retryFromAux (attempts : ℕ → Attempt) : ℕ → ℕ → RetryTrace
  | 0, _ => ⟨Except.error "", 0, []⟩
  | budget + 1, retry =>
    match attempts retry with
    | Attempt.ok e => ⟨Except.ok e, 1, []⟩
    | Attempt.err m =>
      if isRateLimitError m ∧ retry < maxRetries - 1 then
        let t := retryFromAux attempts budget (retry + 1)
        ⟨t.result, t.attemptsUsed + 1, retryDelay * (retry + 1) :: t.waits⟩
      else ⟨Except.error m, 1, []⟩

def retryLoop (attempts : ℕ → Attempt) : RetryTrace :=
  retryFromAux attempts maxRetries 0

inductive TaskOutcome where
  | completed
  | failed (msg : String)
deriving Repr, DecidableEq

inductive FileStatusV where
  | pending
  | indexed
  | error
deriving Repr, DecidableEq

/-- The embed stage of `process_task` for one batch, combined with the
surrounding `except` handler: a propagated error marks the task failed
with the error text and the file status `error`. -/
def processEmbedStage (attempts : ℕ → Attempt) :
    Except (TaskOutcome × FileStatusV) (List (List ℚ)) :=
  match (retryLoop attempts).result with
  | Except.ok e => Except.ok e
  | Except.error m => Except.error (TaskOutcome.failed m, FileStatusV.error)

/-!
## src/retrieval — three-path recall and RRF fusion

Scores are rationals (the Python floats).  The FTS5 match/BM25-score and
the vector-distance computations live inside SQLite, outside this
repository, and are passed in as oracles; the relational shape of each SQL
query (joins, filters, distinct, order, limit) is modelled exactly.
-/

namespace Retrieval

structure SearchResult where
  docTitle : String
  score : ℚ
deriving Repr, DecidableEq

/-- src/retrieval/config.py `SearchConfig`. -/
def exactTopK : ℕ := 10
def bm25TopK : ℕ := 10
def vectorTopK : ℕ := 10
def exactWeight : ℚ := 0.4
def bm25Weight : ℚ := 0.3
def vectorWeight : ℚ := 0.3
def rrfK : ℕ := 60
def finalTopK : ℕ := 20

structure FusedResult where
  docTitle : String
  rrfScore : ℚ
  exactRank : Option ℕ
  bm25Rank : Option ℕ
  vectorRank : Option ℕ
  exactScore : Option ℚ
  bm25Score : Option ℚ
  vectorScore : Option ℚ
deriving Repr, DecidableEq

/-- The rank dictionaries of `rrf_fusion_three_way`: a Python dict
comprehension keyed by doc_title, so a duplicated title keeps its *last*
1-based rank. -/
def rankOf (rs : List SearchResult) (t : String) : Option ℕ :=
  (rs.reverse.findIdx? (fun r => r.docTitle = t)).map (fun i => rs.length - i)

def scoreOf (rs : List SearchResult) (t : String) : Option ℚ :=
  (rs.reverse.find? (fun r => r.docTitle = t)).map SearchResult.score

def pathRrf (w : ℚ) (k : ℕ) (rank : Option ℕ) : ℚ :=
  match rank with
  | some r => (1 / (k + r : ℚ)) * w
  | none => 0

/-- `rrf_fusion_three_way` of src/retrieval/nodes/rrf_rerank_node.py.  The
Python set `all_doc_titles` has no specified iteration order; it is
modelled as first-occurrence dedup of the concatenation, and the final sort
by descending `rrf_score` is stable with respect to that enumeration. -/
def rrfFusionThreeWay (er br vr : List SearchResult) (k : ℕ)
    (we wb wv : ℚ) : List FusedResult :=
  let titles := (er.map SearchResult.docTitle ++ br.map SearchResult.docTitle ++
    vr.map SearchResult.docTitle).dedup
  let fused := titles.map (fun t =>
    { docTitle := t
      rrfScore := pathRrf we k (rankOf er t) + pathRrf wb k (rankOf br t) +
        pathRrf wv k (rankOf vr t)
      exactRank := rankOf er t
      bm25Rank := rankOf br t
      vectorRank := rankOf vr t
      exactScore := scoreOf er t
      bm25Score := scoreOf br t
      vectorScore := scoreOf vr t })
  sortBy (fun a b => b.rrfScore ≤ a.rrfScore) fused

inductive PathKind where
  | exact
  | bm25
  | vector
deriving Repr, DecidableEq

/-- The single-active-path branch of `rrf_rerank_node`: keep the RRF score
scale `(1/(k+rank))·weight` and fill only this path's rank and score. -/
def singlePathFused (p : PathKind) (results : List SearchResult) (k : ℕ)
    (w : ℚ) : List FusedResult :=
  results.enum.map (fun ir =>
    { docTitle := ir.2.docTitle
      rrfScore := (1 / (k + ir.1 + 1 : ℚ)) * w
      exactRank := if p = PathKind.exact then some (ir.1 + 1) else none
      bm25Rank := if p = PathKind.bm25 then some (ir.1 + 1) else none
      vectorRank := if p = PathKind.vector then some (ir.1 + 1) else none
      exactScore := if p = PathKind.exact then some ir.2.score else none
      bm25Score := if p = PathKind.bm25 then some ir.2.score else none
      vectorScore := if p = PathKind.vector then some ir.2.score else none })

/-- `rrf_rerank_node`: error when all three paths are empty, the
single-path branch when exactly one path has results, full three-way
fusion otherwise. -/
def rrfRerankNode (er br vr : List SearchResult) :
    Except String (List FusedResult) :=
  if er = [] ∧ br = [] ∧ vr = [] then Except.error "缺少检索结果"
  else if br = [] ∧ vr = [] then
    Except.ok (singlePathFused PathKind.exact er rrfK exactWeight)
  else if er = [] ∧ vr = [] then
    Except.ok (singlePathFused PathKind.bm25 br rrfK bm25Weight)
  else if er = [] ∧ br = [] then
    Except.ok (singlePathFused PathKind.vector vr rrfK vectorWeight)
  else
    Except.ok (rrfFusionThreeWay er br vr rrfK exactWeight bm25Weight vectorWeight)

/-- Python `round(x, 4)` modelled with Mathlib's `round` (the two differ
only on exact ties, which do not affect any bound proved here). -/
def pyRound4 (q : ℚ) : ℚ :=
  (round (q * 10000) : ℤ) / 10000

structure Output where
  finalKeywords : List String
  titleMatches : List String
  confidenceScores : List (String × ℚ)
deriving Repr, DecidableEq

/-- `output_node` of src/retrieval/nodes/output_node.py (the `stats` block
carries only counts and echoes of the inputs and is omitted). -/
def outputNode (fused : List FusedResult) : Except String Output :=
  if fused = [] then Except.error "缺少融合结果"
  else
    let topK := fused.take finalTopK
    let maxRrf : ℚ := 1 / (rrfK + 1 : ℚ)
    Except.ok
      { finalKeywords := topK.map FusedResult.docTitle
        titleMatches := (topK.filter (fun r => r.exactRank.isSome)).map
          FusedResult.docTitle
        confidenceScores := topK.map (fun r =>
          (r.docTitle, pyRound4 (r.rrfScore / maxRrf))) }

/-- The fusion-and-output tail of the retrieval graph. -/
def rrfThenOutput (er br vr : List SearchResult) : Except String Output :=
  (rrfRerankNode er br vr).bind outputNode

/-! ### The three recall nodes over the database model -/

/-- SQL `LIKE '%tok%'` (case-insensitive on ASCII letters). -/
def likeContains (hay tok : String) : Bool :=
  containsSub hay.toLower.toList tok.toLower.toList

def inScope (fileIds : Option (List ℕ)) (c : ChunkRow) : Bool :=
  match fileIds with
  | none => true
  | some ids => decide (c.fileId ∈ ids)

/-- The BM25 completion loop of `exact_match_node`: append unseen titles
with score `min(bm25/10, 1)` until the path's top-k is full. -/
def addBm25Titles (cap : ℕ) (seen : List SearchResult)
    (rows : List (String × ℚ)) : List SearchResult :=
  rows.foldl (fun acc row =>
    if acc.length < cap ∧ acc.all (fun r => r.docTitle ≠ row.1) then
      acc ++ [⟨row.1, min (row.2 / 10) 1⟩]
    else acc) seen

/-- `exact_match_node` of src/retrieval/nodes/exact_match_node.py.
`titleBm25` is the FTS5 oracle for `doc_title:tok AND …` (`none` = no
match, `some s` = `-bm25` score). -/
def exactMatchNode (db : DB) (tokens : List String)
    (fileIds : Option (List ℕ)) (titleBm25 : ChunkRow → Option ℚ) :
    Except String (List SearchResult) :=
  if tokens = [] then Except.error "缺少分词结果"
  else
    let likeRows := db.chunks.filter (fun c =>
      tokens.all (fun t => likeContains c.docTitle t) && inScope fileIds c)
    let likeResults : List SearchResult :=
      ((likeRows.map ChunkRow.docTitle).dedup.take exactTopK).map (fun t => ⟨t, 1⟩)
    if likeResults.length < exactTopK then
      let bmRows := db.chunks.filterMap (fun c =>
        if inScope fileIds c then (titleBm25 c).map (fun s => (c.docTitle, s))
        else none)
      let limited := (sortBy (fun a b => b.2 ≤ a.2) bmRows.dedup).take
        (exactTopK - likeResults.length + likeResults.length)
      Except.ok (addBm25Titles exactTopK likeResults limited)
    else Except.ok likeResults

/-- `bm25_search_node` of src/retrieval/nodes/bm25_search_node.py;
`bodyBm25` is the FTS5 oracle for the OR-joined token match over
`chunk_text`. -/
def bm25SearchNode (db : DB) (tokens : List String)
    (fileIds : Option (List ℕ)) (bodyBm25 : ChunkRow → Option ℚ) :
    Except String (List SearchResult) :=
  if tokens = [] then Except.error "缺少分词结果"
  else
    let rows := db.chunks.filterMap (fun c =>
      if inScope fileIds c then (bodyBm25 c).map (fun s => (c.docTitle, s))
      else none)
    Except.ok (((sortBy (fun a b => b.2 ≤ a.2) rows.dedup).take bm25TopK).map
      (fun r => ⟨r.1, r.2⟩))

/-- `vector_search_node` of src/retrieval/nodes/vector_search_node.py;
`dist` is the `vec_distance_cosine` oracle against the embedded query. -/
def vectorSearchNode (db : DB) (fileIds : Option (List ℕ))
    (dist : List ℕ → ℚ) : Except String (List SearchResult) :=
  let rows := db.vecChunks.filterMap (fun v =>
    (db.chunks.find? (fun c => c.id = v.chunkId)).bind (fun c =>
      if inScope fileIds c then some (c.docTitle, dist v.embedding) else none))
  Except.ok (((sortBy (fun a b => a.2 ≤ b.2) rows).take vectorTopK).map
    (fun r => ⟨r.1, 1 - r.2 / 2⟩))

/-- `resolve_database_keywords` of src/retrieval/tools/resolve_keywords.py:
the LangGraph pipeline threads the first error through the remaining nodes
and the wrapper raises it; success returns the output of `output_node`.
The jieba tokenisation is external to the repository, so the token list
(and the resolved file-id scope) are inputs; an empty token list is the
preprocess error. -/
def resolveDatabaseKeywords (db : DB) (tokens : List String)
    (fileIds : Option (List ℕ)) (titleBm25 bodyBm25 : ChunkRow → Option ℚ)
    (dist : List ℕ → ℚ) : Except String Output :=
  if tokens = [] then Except.error "未提取到有效关键词"
  else
    (exactMatchNode db tokens fileIds titleBm25).bind (fun er =>
      (bm25SearchNode db tokens fileIds bodyBm25).bind (fun br =>
        (vectorSearchNode db fileIds dist).bind (fun vr =>
          rrfThenOutput er br vr)))

end Retrieval

/-! ## Fixtures and invariant predicates -/

/-- Concrete attempt sequence: a 429 failure followed by success. -/
def attemptsEx : ℕ → Attempt
  | 0 => Attempt.err "HTTP 429 Too Many Requests"
  | _ => Attempt.ok [[1]]

/-- A store with one file owning two chunks (ids 1 and 2, titles "A" and
"B") and coherent vector rows. -/
def dbTwoChunks : DB :=
  ⟨[⟨1, "f.md"⟩],
   [⟨1, 1, "A", "ta", [0]⟩, ⟨2, 1, "B", "tb", [7]⟩],
   [⟨1, [0]⟩, ⟨2, [7]⟩], [], 3⟩

/-- The empty store. -/
def emptyStore : DB := ⟨[], [], [], [], 1⟩

/-- The table from the C4 counterexample: three rows, 14 characters, one
protected region covering the whole text. -/
def tableText : List Char := "|ab|\n|cd|\n|ef|".toList

/-- The claim's invariant: every `chunks` row has exactly one `vec_chunks`
row keyed by its id, carrying identical embedding bytes. -/
def Coherent (db : DB) : Prop :=
  ∀ c ∈ db.chunks,
    (db.vecChunks.filter (fun v => v.chunkId = c.id)).length = 1 ∧
    ∀ v ∈ db.vecChunks, v.chunkId = c.id → v.embedding = c.embedding

/-- Well-formedness of a database snapshot: distinct chunk ids, all ids
below the next rowid, and tri-index coherence. -/
def WFdb (db : DB) : Prop :=
  (db.chunks.map ChunkRow.id).Nodup ∧
  (∀ c ∈ db.chunks, c.id < db.nextId) ∧
  (∀ v ∈ db.vecChunks, v.chunkId < db.nextId) ∧
  Coherent db

/-- The content of a file's working copy, as observed through the
filesystem model. -/
def lookupWorking (db : DB) (fileId : ℕ) : Option String :=
  (db.working.find? (fun w => w.1 = fileId)).map Prod.snd

/-- Store for the C9 witness: one file with a single chunk. -/
def dbOneChunk : DB :=
  ⟨[⟨1, "g.md"⟩], [⟨1, 1, "T", "tx", [4]⟩], [⟨1, [4]⟩], [(1, "w")], 2⟩

/-- Concrete content for the C8 witness: an intro followed by one small
h2 section. -/
def exC8 : List Char := "Intro.\n## A\nbody".toList

/-!
## Theorems
-/

theorem filterMap_const_none (l : List α) :
    l.filterMap (fun _ => (none : Option β)) = [] := by
  induction l with
  | nil => rfl
  | cons a l ih => simp [List.filterMap_cons, ih]

theorem exceptBind_ok (a : α) (f : α → Except ε β) :
    (Except.ok a : Except ε α).bind f = f a := rfl

theorem exceptBind_error (e : ε) (f : α → Except ε β) :
    (Except.error e : Except ε α).bind f = Except.error e := rfl

@[simp]
theorem sortBy_nil (le : α → α → Bool) : sortBy le ([] : List α) = [] := rfl

theorem mem_orderedInsert {le : α → α → Bool} {a x : α} {l : List α} :
    x ∈ orderedInsert le a l ↔ x = a ∨ x ∈ l := by
  induction l with
  | nil => simp [orderedInsert]
  | cons b l ih =>
    unfold orderedInsert
    split
    · simp
    · simp [ih]
      tauto

theorem mem_sortBy {le : α → α → Bool} {x : α} {l : List α} :
    x ∈ sortBy le l ↔ x ∈ l := by
  induction l with
  | nil => simp [sortBy]
  | cons a l ih =>
    unfold sortBy
    rw [mem_orderedInsert, ih]
    simp

/-- C6: for any two consecutive completions of `RateLimiter.acquire`, the
recorded request timestamps differ by at least `60 / rpm` seconds (the
limiter sleeps the remainder of the interval before granting the permit),
and the process-wide singleton limiter is created with `rpm = 20`. -/
theorem claim_C6 (rl : RateLimiter) (t now slack : ℚ) (hslack : 0 ≤ slack) :
    60 / rl.rpm ≤ acquireRecord rl (some t) now slack - t ∧
    getRateLimiter.rpm = 20 ∧ getRateLimiter.minInterval = 60 / 20 := by
  refine ⟨?_, rfl, rfl⟩
  unfold acquireRecord
  simp only
  split
  · linarith
  · next h => linarith [not_lt.mp h]

theorem claim_C6_witness :
    60 / getRateLimiter.rpm ≤ acquireRecord getRateLimiter (some 0) 1 0 - 0 ∧
    getRateLimiter.rpm = 20 ∧ getRateLimiter.minInterval = 60 / 20 :=
  claim_C6 getRateLimiter 0 1 0 le_rfl

/-- Full unfolding of the three-attempt retry loop of `process_task`. -/
theorem retryLoop_eq (a : ℕ → Attempt) :
    retryLoop a =
      match a 0 with
      | Attempt.ok e => ⟨Except.ok e, 1, []⟩
      | Attempt.err m0 =>
        if isRateLimitError m0 then
          match a 1 with
          | Attempt.ok e => ⟨Except.ok e, 2, [5]⟩
          | Attempt.err m1 =>
            if isRateLimitError m1 then
              match a 2 with
              | Attempt.ok e => ⟨Except.ok e, 3, [5, 10]⟩
              | Attempt.err m2 => ⟨Except.error m2, 3, [5, 10]⟩
            else ⟨Except.error m1, 2, [5]⟩
        else ⟨Except.error m0, 1, []⟩ := by
  rcases h0 : a 0 with e0 | m0 <;>
    simp only [retryLoop, retryFromAux, maxRetries, retryDelay, h0]
  by_cases hr0 : isRateLimitError m0
  · rcases h1 : a 1 with e1 | m1 <;>
      simp only [retryFromAux, h1, hr0, if_pos, true_and]
    · norm_num
    · by_cases hr1 : isRateLimitError m1
      · rcases h2 : a 2 with e2 | m2 <;>
          simp [retryFromAux, h2, hr1, hr0]
      · simp [hr1, hr0]
  · simp [hr0]

/-- C7: each embedding batch is attempted at most 3 times; an attempt's
error triggers a further attempt iff its lowercased message contains
"429", "403" or "rate limit" and the attempt budget is not exhausted; the
wait before the n-th retry is `5·n` seconds; a propagated error is the
final attempt's message, which is either not a rate-limit error or the
third consecutive rate-limit failure, and it marks the task failed and the
file status `error`. -/
theorem claim_C7 (a : ℕ → Attempt) :
    1 ≤ (retryLoop a).attemptsUsed ∧ (retryLoop a).attemptsUsed ≤ 3 ∧
    (∀ n, n + 1 < (retryLoop a).attemptsUsed →
      ∃ m, a n = Attempt.err m ∧ isRateLimitError m = true) ∧
    (∀ n m, a n = Attempt.err m → isRateLimitError m = true →
      n + 1 < maxRetries → n < (retryLoop a).attemptsUsed →
      n + 1 < (retryLoop a).attemptsUsed) ∧
    ((retryLoop a).waits =
      (List.range ((retryLoop a).attemptsUsed - 1)).map
        (fun i => retryDelay * (i + 1))) ∧
    (∀ e, (retryLoop a).result = Except.error e →
      a ((retryLoop a).attemptsUsed - 1) = Attempt.err e ∧
      (isRateLimitError e = false ∨ (retryLoop a).attemptsUsed = 3) ∧
      processEmbedStage a =
        Except.error (TaskOutcome.failed e, FileStatusV.error)) := by
  have hw1 : ([] : List ℕ) = (List.range (1 - 1)).map (fun i => retryDelay * (i + 1)) := by decide
  have hw2 : [5] = (List.range (2 - 1)).map (fun i => retryDelay * (i + 1)) := by decide
  have hw3 : [5, 10] = (List.range (3 - 1)).map (fun i => retryDelay * (i + 1)) := by decide
  have hq := retryLoop_eq a
  rcases h0 : a 0 with e0 | m0
  · simp only [h0] at hq
    rw [hq]
    refine ⟨by simp, by simp, ?_, ?_, hw1, ?_⟩
    · intro n hn; simp at hn
    · intro n m ha hr hn hlt
      simp at hlt
      rw [hlt, h0] at ha; cases ha
    · intro e he; simp at he
  · simp only [h0] at hq
    by_cases hr0 : isRateLimitError m0
    · rw [if_pos hr0] at hq
      rcases h1 : a 1 with e1 | m1
      · simp only [h1] at hq
        rw [hq]
        refine ⟨by simp, by simp, ?_, ?_, hw2, ?_⟩
        · intro n hn
          simp at hn
          have hn0 : n = 0 := by omega
          exact ⟨m0, by rw [hn0, h0], hr0⟩
        · intro n m ha hr hn hlt
          simp only [maxRetries] at hn; simp at hlt ⊢
          have hn01 : n = 0 ∨ n = 1 := by omega
          rcases hn01 with h | h
          · omega
          · rw [h, h1] at ha; cases ha
        · intro e he; simp at he
      · simp only [h1] at hq
        by_cases hr1 : isRateLimitError m1
        · rw [if_pos hr1] at hq
          rcases h2 : a 2 with e2 | m2 <;> simp only [h2] at hq <;> rw [hq] <;>
            refine ⟨by simp, by simp, ?_, ?_, hw3, ?_⟩
          · intro n hn
            simp at hn
            match n, hn with
            | 0, _ => exact ⟨m0, h0, hr0⟩
            | 1, _ => exact ⟨m1, h1, hr1⟩
          · intro n m ha hr hn hlt
            simp only [maxRetries] at hn; simp at hlt ⊢; omega
          · intro e he; simp at he
          · intro n hn
            simp at hn
            match n, hn with
            | 0, _ => exact ⟨m0, h0, hr0⟩
            | 1, _ => exact ⟨m1, h1, hr1⟩
          · intro n m ha hr hn hlt
            simp only [maxRetries] at hn; simp at hlt ⊢; omega
          · intro e he
            simp only [Except.error.injEq] at he
            subst he
            refine ⟨h2, Or.inr rfl, ?_⟩
            simp [processEmbedStage, hq]
        · rw [if_neg hr1] at hq
          rw [hq]
          refine ⟨by simp, by simp, ?_, ?_, hw2, ?_⟩
          · intro n hn
            simp at hn
            have hn0 : n = 0 := by omega
            exact ⟨m0, by rw [hn0, h0], hr0⟩
          · intro n m ha hr hn hlt
            simp at hlt ⊢
            have : n = 0 ∨ n = 1 := by omega
            rcases this with h | h
            · omega
            · rw [h, h1] at ha
              cases ha
              exact absurd hr hr1
          · intro e he
            simp only [Except.error.injEq] at he
            subst he
            refine ⟨h1, Or.inl (by simpa using hr1), ?_⟩
            simp [processEmbedStage, hq]
    · rw [if_neg hr0] at hq
      rw [hq]
      refine ⟨by simp, by simp, ?_, ?_, hw1, ?_⟩
      · intro n hn; simp at hn
      · intro n m ha hr hn hlt
        simp at hlt ⊢
        have hn0 : n = 0 := by omega
        rw [hn0, h0] at ha
        cases ha
        exact absurd hr hr0
      · intro e he
        simp only [Except.error.injEq] at he
        subst he
        refine ⟨h0, Or.inl (by simpa using hr0), ?_⟩
        simp [processEmbedStage, hq]

/-! ### C5: RRF confidence bound -/

theorem findIdx?_lt_length {p : α → Bool} :
    ∀ {l : List α} {i : ℕ}, l.findIdx? p = some i → i < l.length := by
  intro l
  induction l with
  | nil => intro i h; simp [List.findIdx?] at h
  | cons a l ih =>
    intro i h
    rw [List.findIdx?_cons] at h
    by_cases hp : p a
    · simp [hp] at h
      simp [← h]
    · simp [hp] at h
      rcases h with ⟨j, hj, rfl⟩
      have := ih hj
      simp
      omega

theorem rankOf_bounds {rs : List Retrieval.SearchResult} {t : String} {r : ℕ}
    (h : Retrieval.rankOf rs t = some r) : 1 ≤ r ∧ r ≤ rs.length := by
  unfold Retrieval.rankOf at h
  rcases hf : rs.reverse.findIdx? (fun x => x.docTitle = t) with _ | i
  · rw [hf] at h; cases h
  · rw [hf] at h
    simp at h
    have hi := findIdx?_lt_length hf
    rw [List.length_reverse] at hi
    omega

theorem pathRrf_bounds (w : ℚ) (k : ℕ) (rs : List Retrieval.SearchResult)
    (t : String) (hw : 0 ≤ w) :
    0 ≤ Retrieval.pathRrf w k (Retrieval.rankOf rs t) ∧
    Retrieval.pathRrf w k (Retrieval.rankOf rs t) ≤ w * (1 / (k + 1 : ℚ)) := by
  rcases hr : Retrieval.rankOf rs t with _ | r
  · unfold Retrieval.pathRrf
    constructor
    · simp
    · simp
      positivity
  · have h1 := (rankOf_bounds hr).1
    unfold Retrieval.pathRrf
    simp only
    have hk1 : (0 : ℚ) < (k : ℚ) + 1 := by positivity
    have hkr : (0 : ℚ) < (k : ℚ) + r := by
      have : (1 : ℚ) ≤ (r : ℚ) := by exact_mod_cast h1
      linarith
    constructor
    · positivity
    · have hle : (k : ℚ) + 1 ≤ (k : ℚ) + r := by
        have : (1 : ℚ) ≤ (r : ℚ) := by exact_mod_cast h1
        linarith
      have := one_div_le_one_div_of_le hk1 hle
      nlinarith

theorem fusion_rrfScore_bounds (er br vr : List Retrieval.SearchResult)
    (k : ℕ) (we wb wv : ℚ) (hwe : 0 ≤ we) (hwb : 0 ≤ wb) (hwv : 0 ≤ wv)
    (f : Retrieval.FusedResult)
    (hf : f ∈ Retrieval.rrfFusionThreeWay er br vr k we wb wv) :
    0 ≤ f.rrfScore ∧ f.rrfScore ≤ (we + wb + wv) * (1 / (k + 1 : ℚ)) := by
  unfold Retrieval.rrfFusionThreeWay at hf
  rw [mem_sortBy] at hf
  simp only [List.mem_map] at hf
  rcases hf with ⟨t, _, rfl⟩
  simp only
  have he := pathRrf_bounds we k er t hwe
  have hb := pathRrf_bounds wb k br t hwb
  have hv := pathRrf_bounds wv k vr t hwv
  constructor
  · linarith [he.1, hb.1, hv.1]
  · have : (we + wb + wv) * (1 / (k + 1 : ℚ)) =
        we * (1 / (k + 1 : ℚ)) + wb * (1 / (k + 1 : ℚ)) + wv * (1 / (k + 1 : ℚ)) := by
      ring
    rw [this]
    linarith [he.2, hb.2, hv.2]

theorem singlePath_rrfScore_bounds (p : Retrieval.PathKind)
    (rs : List Retrieval.SearchResult) (k : ℕ) (w : ℚ) (hw : 0 ≤ w)
    (f : Retrieval.FusedResult) (hf : f ∈ Retrieval.singlePathFused p rs k w) :
    0 ≤ f.rrfScore ∧ f.rrfScore ≤ w * (1 / (k + 1 : ℚ)) := by
  unfold Retrieval.singlePathFused at hf
  simp only [List.mem_map] at hf
  rcases hf with ⟨ir, _, rfl⟩
  simp only
  have hk1 : (0 : ℚ) < (k : ℚ) + 1 := by positivity
  have hki : (0 : ℚ) < (k : ℚ) + ir.1 + 1 := by positivity
  constructor
  · positivity
  · have hle : (k : ℚ) + 1 ≤ (k : ℚ) + ir.1 + 1 := by
      have : (0 : ℚ) ≤ (ir.1 : ℚ) := by positivity
      linarith
    have := one_div_le_one_div_of_le hk1 hle
    nlinarith

/-- Any fused result delivered by `rrf_rerank_node` has its RRF score in
`[0, 1/(k_rrf+1)]`. -/
theorem rerank_rrfScore_bounds (er br vr : List Retrieval.SearchResult)
    (fused : List Retrieval.FusedResult)
    (h : Retrieval.rrfRerankNode er br vr = Except.ok fused)
    (f : Retrieval.FusedResult) (hf : f ∈ fused) :
    0 ≤ f.rrfScore ∧ f.rrfScore ≤ 1 / (Retrieval.rrfK + 1 : ℚ) := by
  unfold Retrieval.rrfRerankNode at h
  have hW : Retrieval.exactWeight = 2/5 ∧ Retrieval.bm25Weight = 3/10 ∧
      Retrieval.vectorWeight = 3/10 := by
    norm_num [Retrieval.exactWeight, Retrieval.bm25Weight, Retrieval.vectorWeight]
  by_cases h1 : er = [] ∧ br = [] ∧ vr = []
  · rw [if_pos h1] at h; cases h
  · rw [if_neg h1] at h
    by_cases h2 : br = [] ∧ vr = []
    · rw [if_pos h2, Except.ok.injEq] at h
      subst h
      have hb := singlePath_rrfScore_bounds Retrieval.PathKind.exact er
        Retrieval.rrfK Retrieval.exactWeight (by rw [hW.1]; norm_num) f hf
      refine ⟨hb.1, le_trans hb.2 ?_⟩
      rw [hW.1]
      have : (0:ℚ) < 1 / ((Retrieval.rrfK : ℚ) + 1) := by positivity
      nlinarith
    · rw [if_neg h2] at h
      by_cases h3 : er = [] ∧ vr = []
      · rw [if_pos h3, Except.ok.injEq] at h
        subst h
        have hb := singlePath_rrfScore_bounds Retrieval.PathKind.bm25 br
          Retrieval.rrfK Retrieval.bm25Weight (by rw [hW.2.1]; norm_num) f hf
        refine ⟨hb.1, le_trans hb.2 ?_⟩
        rw [hW.2.1]
        have : (0:ℚ) < 1 / ((Retrieval.rrfK : ℚ) + 1) := by positivity
        nlinarith
      · rw [if_neg h3] at h
        by_cases h4 : er = [] ∧ br = []
        · rw [if_pos h4, Except.ok.injEq] at h
          subst h
          have hb := singlePath_rrfScore_bounds Retrieval.PathKind.vector vr
            Retrieval.rrfK Retrieval.vectorWeight (by rw [hW.2.2]; norm_num) f hf
          refine ⟨hb.1, le_trans hb.2 ?_⟩
          rw [hW.2.2]
          have : (0:ℚ) < 1 / ((Retrieval.rrfK : ℚ) + 1) := by positivity
          nlinarith
        · rw [if_neg h4, Except.ok.injEq] at h
          subst h
          have hb := fusion_rrfScore_bounds er br vr Retrieval.rrfK
            Retrieval.exactWeight Retrieval.bm25Weight Retrieval.vectorWeight
            (by rw [hW.1]; norm_num) (by rw [hW.2.1]; norm_num)
            (by rw [hW.2.2]; norm_num) f hf
          refine ⟨hb.1, le_trans hb.2 ?_⟩
          rw [hW.1, hW.2.1, hW.2.2]
          norm_num

theorem pyRound4_mem_unit {x : ℚ} (h0 : 0 ≤ x) (h1 : x ≤ 1) :
    0 ≤ Retrieval.pyRound4 x ∧ Retrieval.pyRound4 x ≤ 1 := by
  unfold Retrieval.pyRound4
  have hr := round_eq (x * 10000)
  have hlo : (0 : ℤ) ≤ round (x * 10000) := by
    rw [hr]
    rw [Int.le_floor]
    push_cast
    linarith
  have hhi : round (x * 10000) ≤ 10000 := by
    rw [hr]
    have : x * 10000 + 1 / 2 ≤ 10000 + 1 / 2 := by linarith
    calc ⌊x * 10000 + 1 / 2⌋ ≤ ⌊(10000 : ℚ) + 1 / 2⌋ := Int.floor_le_floor this
      _ = 10000 := by norm_num
  constructor
  · positivity
  · rw [div_le_one (by norm_num)]
    exact_mod_cast hhi

/-- C5: every value in the `confidence_scores` dictionary produced by RRF
fusion and the output node lies in the closed interval `[0, 1]`. -/
theorem claim_C5 (er br vr : List Retrieval.SearchResult)
    (o : Retrieval.Output) (ho : Retrieval.rrfThenOutput er br vr = Except.ok o)
    (t : String) (v : ℚ) (hmem : (t, v) ∈ o.confidenceScores) :
    0 ≤ v ∧ v ≤ 1 := by
  unfold Retrieval.rrfThenOutput at ho
  rcases hrr : Retrieval.rrfRerankNode er br vr with e | fused
  · rw [hrr] at ho; cases ho
  · rw [hrr] at ho
    simp only [Except.bind] at ho
    unfold Retrieval.outputNode at ho
    split at ho
    · cases ho
    · rw [Except.ok.injEq] at ho
      subst ho
      simp only [List.mem_map] at hmem
      rcases hmem with ⟨f, hfmem, hfeq⟩
      have hftake : f ∈ fused := List.mem_of_mem_take hfmem
      have hb := rerank_rrfScore_bounds er br vr fused hrr f hftake
      have hveq : v = Retrieval.pyRound4 (f.rrfScore / (1 / (Retrieval.rrfK + 1 : ℚ))) := by
        have := congrArg Prod.snd hfeq
        simpa using this.symm
      have hK : ((Retrieval.rrfK : ℚ) + 1) = 61 := by norm_num [Retrieval.rrfK]
      have hdiv : f.rrfScore / (1 / (Retrieval.rrfK + 1 : ℚ)) = 61 * f.rrfScore := by
        rw [hK]
        field_simp
        ring
      rw [hveq, hdiv]
      have h61 : 61 * f.rrfScore ≤ 1 := by
        have := hb.2
        rw [hK] at this
        linarith
      exact pyRound4_mem_unit (by linarith [hb.1]) h61

theorem claim_C5_witness :
    Retrieval.rrfThenOutput [⟨"t", 1⟩] [] [] =
      Except.ok ⟨["t"], ["t"], [("t", 2/5)]⟩ ∧
    ("t", (2/5 : ℚ)) ∈ [("t", (2/5 : ℚ))] ∧
    0 ≤ (2/5 : ℚ) ∧ (2/5 : ℚ) ≤ 1 := by
  have h1 : Retrieval.rrfRerankNode [⟨"t", 1⟩] [] [] =
      Except.ok [⟨"t", 2/305, some 1, none, none, some 1, none, none⟩] := by
    simp [Retrieval.rrfRerankNode, Retrieval.singlePathFused, Retrieval.rrfK,
      Retrieval.exactWeight]
    norm_num
  have h : Retrieval.rrfThenOutput [⟨"t", 1⟩] [] [] =
      Except.ok ⟨["t"], ["t"], [("t", 2/5)]⟩ := by
    unfold Retrieval.rrfThenOutput
    rw [h1, exceptBind_ok]
    simp [Retrieval.outputNode, Retrieval.finalTopK, Retrieval.pyRound4,
      Retrieval.rrfK]
    norm_num [round_eq]
  exact ⟨h, List.mem_singleton.mpr rfl,
    claim_C5 [⟨"t", 1⟩] [] [] ⟨["t"], ["t"], [("t", 2/5)]⟩ h "t" (2/5)
      (List.mem_singleton.mpr rfl)⟩

/-- C1 (failing input): requesting only "B" from `dbTwoChunks`.  The SQL
window functions run after the `WHERE doc_title IN (…)` filter, so the
returned `total_chunks_in_file` is 1 and `chunk_index_in_file` is 1,
although the file has 2 chunks and chunk 2 is its second chunk — the
values the field names, the docstring of `get_docs` and the spec promise. -/
theorem claim_C1 :
    getDocs dbTwoChunks ["B"] =
      [("B", some ⟨2, 1, "f.md", "B", "tb", 1, 1⟩)] ∧
    fileChunkCount dbTwoChunks 1 = 2 ∧
    fileChunkIndex dbTwoChunks 1 2 = 2 ∧
    (1 : ℕ) ≠ fileChunkCount dbTwoChunks 1 ∧
    (1 : ℕ) ≠ fileChunkIndex dbTwoChunks 1 2 := by
  refine ⟨?_, by decide, by decide, by decide, by decide⟩
  decide

/-- The three recall nodes all return empty result lists on a chunk-less
store. -/
theorem recallNodes_empty (db : DB) (hchunks : db.chunks = [])
    (tokens : List String) (htok : tokens ≠ [])
    (fileIds : Option (List ℕ)) (titleBm25 bodyBm25 : ChunkRow → Option ℚ)
    (dist : List ℕ → ℚ) :
    Retrieval.exactMatchNode db tokens fileIds titleBm25 = Except.ok [] ∧
    Retrieval.bm25SearchNode db tokens fileIds bodyBm25 = Except.ok [] ∧
    Retrieval.vectorSearchNode db fileIds dist = Except.ok [] := by
  refine ⟨?_, ?_, ?_⟩
  · simp [Retrieval.exactMatchNode, hchunks, htok, Retrieval.addBm25Titles,
      Retrieval.exactTopK]
  · simp [Retrieval.bm25SearchNode, hchunks, htok]
  · simp [Retrieval.vectorSearchNode, hchunks, filterMap_const_none]

/-- C2 (counterexample): on a store with no chunks, a query with one valid
token makes all three recall paths return empty lists, `rrf_rerank_node`
sets the error "缺少检索结果" and `resolve_database_keywords` raises it —
the call does not return an empty success result. -/
theorem claim_C2_counterexample :
    Retrieval.resolveDatabaseKeywords emptyStore ["百日咳"] none
        (fun _ => none) (fun _ => none) (fun _ => 0) =
      Except.error "缺少检索结果" ∧
    ∀ o : Retrieval.Output,
      Retrieval.resolveDatabaseKeywords emptyStore ["百日咳"] none
          (fun _ => none) (fun _ => none) (fun _ => 0) ≠ Except.ok o := by
  obtain ⟨h1, h2, h3⟩ := recallNodes_empty emptyStore rfl ["百日咳"]
    (by decide) none (fun _ => none) (fun _ => none) (fun _ => 0)
  have hres : Retrieval.resolveDatabaseKeywords emptyStore ["百日咳"] none
      (fun _ => none) (fun _ => none) (fun _ => 0) =
      Except.error "缺少检索结果" := by
    simp [Retrieval.resolveDatabaseKeywords, h1, h2, h3, exceptBind_ok,
      exceptBind_error, Retrieval.rrfThenOutput, Retrieval.rrfRerankNode]
  exact ⟨hres, fun o h => by rw [hres] at h; cases h⟩

/-- C2 (amended): for every query yielding at least one valid token, every
file scope and every FTS/vector oracle, running the retriever against a
store containing no chunks yields the error "缺少检索结果" (raised by
`resolve_database_keywords`) rather than an empty success result. -/
theorem claim_C2 (db : DB) (hchunks : db.chunks = [])
    (tokens : List String) (htok : tokens ≠ [])
    (fileIds : Option (List ℕ)) (titleBm25 bodyBm25 : ChunkRow → Option ℚ)
    (dist : List ℕ → ℚ) :
    Retrieval.resolveDatabaseKeywords db tokens fileIds titleBm25 bodyBm25 dist =
      Except.error "缺少检索结果" := by
  obtain ⟨h1, h2, h3⟩ := recallNodes_empty db hchunks tokens htok fileIds
    titleBm25 bodyBm25 dist
  simp [Retrieval.resolveDatabaseKeywords, htok, h1, h2, h3, exceptBind_ok,
    exceptBind_error, Retrieval.rrfThenOutput, Retrieval.rrfRerankNode]

theorem claim_C2_witness :
    emptyStore.chunks = [] ∧ (["百日咳"] : List String) ≠ [] ∧
    Retrieval.resolveDatabaseKeywords emptyStore ["百日咳"] (some [1])
        (fun _ => some 1) (fun _ => some 1) (fun _ => 0) =
      Except.error "缺少检索结果" :=
  ⟨rfl, by decide,
    claim_C2 emptyStore rfl ["百日咳"] (by decide) (some [1])
      (fun _ => some 1) (fun _ => some 1) (fun _ => 0)⟩

theorem claim_C7_witness :
    (retryLoop attemptsEx).attemptsUsed ≤ 3 ∧
    (∃ m, attemptsEx 0 = Attempt.err m ∧ isRateLimitError m = true) ∧
    (retryLoop attemptsEx).waits =
      (List.range ((retryLoop attemptsEx).attemptsUsed - 1)).map
        (fun i => retryDelay * (i + 1)) :=
  ⟨(claim_C7 attemptsEx).2.1,
    (claim_C7 attemptsEx).2.2.1 0 (by decide),
    (claim_C7 attemptsEx).2.2.2.2.1⟩

/-! ### C4 / C10: recursive_split safety and termination -/

theorem pickMin_mem : ∀ (rest : List (ℕ × ℕ × ℕ)) (c : ℕ × ℕ × ℕ),
    pickMin c rest = c ∨ pickMin c rest ∈ rest := by
  intro rest
  induction rest with
  | nil => intro c; left; rfl
  | cons x rs ih =>
    intro c
    unfold pickMin
    simp only [List.foldl_cons]
    rcases ih (if keyLt (candidateKey x) (candidateKey c) then x else c) with h | h
    · unfold pickMin at h
      rw [h]
      split
      · right; exact List.mem_cons_self x rs
      · left; rfl
    · unfold pickMin at h
      right
      exact List.mem_cons_of_mem x h

theorem sep_length_pos : ∀ s ∈ SEPARATORS, 1 ≤ s.length := by decide

theorem splitCandidates_mem {seg : List Char} {target off : ℕ}
    {bounds : List (ℕ × ℕ)} {x : ℕ × ℕ × ℕ}
    (hx : x ∈ splitCandidates seg target off bounds) :
    isSafeSplitPoint (off + x.2.2) bounds = true ∧
    target - 200 + 1 ≤ x.2.2 ∧ 0 < x.2.2 ∧ x.2.2 < seg.length := by
  unfold splitCandidates at hx
  rw [List.mem_filterMap] at hx
  rcases hx with ⟨pe, hpe, hfx⟩
  obtain ⟨pri, s⟩ := pe
  rcases hrf : rfindSub (slice seg (target - 200) target) s with _ | p
  · rw [hrf] at hfx; cases hfx
  · rw [hrf] at hfx
    simp only at hfx
    split_ifs at hfx with h1 h2
    · rw [Option.some.injEq] at hfx
      subst hfx
      have hmem := List.mem_enum hpe
      have hsep : s ∈ SEPARATORS := by
        rw [hmem.2]
        exact List.getElem_mem _
      have hlen := sep_length_pos s hsep
      exact ⟨h2, by simp only; omega, h1.1, h1.2⟩

theorem stepPositions_800 {p : ℕ} (hp : p ∈ stepPositions 800) :
    410 ≤ p ∧ p ≤ 800 := by
  unfold stepPositions at hp
  norm_num at hp
  rcases hp with ⟨i, hi, rfl⟩
  omega

/-- The split point chosen by `find_split_point` is outside every protected
region unless it is the forced cut exactly at the target size. -/
theorem findSplitPoint_safe_or_target (seg : List Char) (target off : ℕ)
    (bounds : List (ℕ × ℕ)) :
    isSafeSplitPoint (off + findSplitPoint seg target off bounds) bounds = true ∨
    findSplitPoint seg target off bounds = target := by
  unfold findSplitPoint
  rcases hc : splitCandidates seg target off bounds with _ | ⟨c, rest⟩
  · simp only
    rcases hf : (stepPositions target).find?
        (fun p => isSafeSplitPoint (off + p) bounds) with _ | p
    · simp only
      right
      trivial
    · simp only
      left
      simpa using List.find?_some hf
  · simp only
    left
    have hmem : pickMin c rest ∈ splitCandidates seg target off bounds := by
      rw [hc]
      rcases pickMin_mem rest c with h | h
      · rw [h]; exact List.mem_cons_self c rest
      · exact List.mem_cons_of_mem c h
    exact (splitCandidates_mem hmem).1

/-- With the default target size 800, every split point is at least 410
characters beyond the current start (candidates sit in the 200-character
window before the target, the stepping fallback within 400). -/
theorem findSplitPoint_800_ge (seg : List Char) (off : ℕ)
    (bounds : List (ℕ × ℕ)) : 410 ≤ findSplitPoint seg 800 off bounds := by
  unfold findSplitPoint
  rcases hc : splitCandidates seg 800 off bounds with _ | ⟨c, rest⟩
  · simp only
    rcases hf : (stepPositions 800).find?
        (fun p => isSafeSplitPoint (off + p) bounds) with _ | p
    · simp only
      norm_num
    · simp only
      exact (stepPositions_800 (List.mem_of_find?_eq_some hf)).1
  · simp only
    have hmem : pickMin c rest ∈ splitCandidates seg 800 off bounds := by
      rw [hc]
      rcases pickMin_mem rest c with h | h
      · rw [h]; exact List.mem_cons_self c rest
      · exact List.mem_cons_of_mem c h
    have := (splitCandidates_mem hmem).2.1
    omega

theorem isSome_map_of (g : α → β) (o : Option α) (h : o.isSome = true) :
    (o.map g).isSome = true := by
  rcases o with _ | a
  · cases h
  · rfl

theorem splitRangesLoop_isSome (bounds : List (ℕ × ℕ)) (text : List Char) :
    ∀ fuel start, text.length - start < fuel →
      (splitRangesLoop bounds text 800 150 fuel start).isSome = true := by
  intro fuel
  induction fuel with
  | zero => intro start h; omega
  | succ f ih =>
    intro start h
    unfold splitRangesLoop
    split
    · next h1 =>
      split
      · simp
      · next h2 =>
        have hge := findSplitPoint_800_ge (text.drop start) start bounds
        apply isSome_map_of
        apply ih
        split
        · omega
        · omega
    · simp

/-- C10: `recursive_split` with the default parameters (chunk size 800,
overlap 150) terminates on every input: every split point lies more than
`overlap` characters (in fact at least 410) beyond the current start, so
the loop's start position strictly increases and the natural fuel
`length + 1` is never exhausted. -/
theorem claim_C10 :
    (∀ (seg : List Char) (off : ℕ) (bounds : List (ℕ × ℕ)),
      150 < findSplitPoint seg 800 off bounds ∧
      410 ≤ findSplitPoint seg 800 off bounds) ∧
    (∀ text : List Char, ∃ rs, recursiveSplitRanges text 800 150 = some rs) := by
  constructor
  · intro seg off bounds
    have := findSplitPoint_800_ge seg off bounds
    omega
  · intro text
    have h := splitRangesLoop_isSome (protectedBoundaries text) text
      (text.length + 1) 0 (by omega)
    rcases hx : splitRangesLoop (protectedBoundaries text) text 800 150
        (text.length + 1) 0 with _ | rs
    · rw [hx] at h; cases h
    · exact ⟨rs, hx⟩

/-- C4 (counterexample): on a pure Markdown table with `chunk_size = 10`,
`overlap = 3`, the forced cut at the target size ends the first chunk at
position 10 and the overlap step starts the second chunk at position 7 —
both strictly inside the protected table region `(0, 14)`, tearing a table
row (the second chunk starts with `cd|`). -/
theorem claim_C4_counterexample :
    protectedBoundaries tableText = [(0, 14)] ∧
    pyStrip tableText = tableText ∧
    recursiveSplitRanges tableText 10 3 = some [(0, 10), (7, 14)] ∧
    recursiveSplit tableText 10 3 =
      ["|ab|\n|cd|".toList, "d|\n|ef|".toList] ∧
    ((0 : ℕ) < 7 ∧ 7 < 14) ∧ ((0 : ℕ) < 10 ∧ 10 < 14) :=
  ⟨by decide, by decide, by decide, by decide, by decide, by decide⟩

/-- C4 (amended): every chunk returned by `recursive_split` is non-empty,
and every split point chosen by `find_split_point` is outside all protected
regions *or* is the forced cut exactly at the target size; start positions
produced by the overlap step are not checked against protected regions. -/
theorem claim_C4 :
    (∀ (text : List Char) (cs ov : ℕ) (c : List Char),
      c ∈ recursiveSplit text cs ov → c ≠ []) ∧
    (∀ (seg : List Char) (target off : ℕ) (bounds : List (ℕ × ℕ)),
      isSafeSplitPoint (off + findSplitPoint seg target off bounds) bounds = true ∨
      findSplitPoint seg target off bounds = target) := by
  constructor
  · intro text cs ov c hc
    simp only [recursiveSplit] at hc
    split_ifs at hc with h1 h2
    · simp at hc
    · rw [List.mem_singleton] at hc
      rw [hc]
      exact h1
    · rw [List.mem_filterMap] at hc
      rcases hc with ⟨r, _, hfr⟩
      split_ifs at hfr with h3
      · rw [Option.some.injEq] at hfr
        rw [← hfr]
        exact h3
  · exact fun seg target off bounds =>
      findSplitPoint_safe_or_target seg target off bounds

theorem claim_C4_witness :
    "|ab|\n|cd|".toList ∈ recursiveSplit tableText 10 3 ∧
    "|ab|\n|cd|".toList ≠ ([] : List Char) :=
  ⟨by decide, claim_C4.1 tableText 10 3 "|ab|\n|cd|".toList (by decide)⟩

/-! ### C3: tri-index coherence (chunks / vec_chunks) -/

theorem wf_of_fields_eq {db db' : DB} (h1 : db'.chunks = db.chunks)
    (h2 : db'.vecChunks = db.vecChunks) (h3 : db'.nextId = db.nextId)
    (hwf : WFdb db) : WFdb db' := by
  unfold WFdb Coherent at *
  rw [h1, h2, h3]
  exact hwf

theorem wf_repoInsert (db : DB) (hwf : WFdb db) (fid : ℕ) (t x : String)
    (e : List ℕ) : WFdb (repoInsert db fid t x e).1 := by
  obtain ⟨hnd, hcb, hvb, hco⟩ := hwf
  refine ⟨?_, ?_, ?_, ?_⟩
  · simp only [repoInsert, List.map_append, List.map_cons, List.map_nil]
    refine List.Nodup.append hnd (by simp) ?_
    rw [List.disjoint_singleton]
    intro hmem
    rcases List.mem_map.mp hmem with ⟨c, hc, hid⟩
    exact absurd hid (Nat.ne_of_lt (hcb c hc))
  · intro c hc
    simp only [repoInsert] at hc ⊢
    rcases List.mem_append.mp hc with h | h
    · exact Nat.lt_succ_of_lt (hcb c h)
    · rw [List.mem_singleton] at h
      rw [h]
      exact Nat.lt_succ_self _
  · intro v hv
    simp only [repoInsert] at hv ⊢
    rcases List.mem_append.mp hv with h | h
    · exact Nat.lt_succ_of_lt (hvb v h)
    · rw [List.mem_singleton] at h
      rw [h]
      exact Nat.lt_succ_self _
  · intro c hc
    simp only [repoInsert] at hc ⊢
    rcases List.mem_append.mp hc with h | h
    · have hne : ¬ (db.nextId = c.id) := Nat.ne_of_gt (hcb c h)
      constructor
      · rw [List.filter_append]
        simp [hne]
        exact (hco c h).1
      · intro v hv hvc
        rcases List.mem_append.mp hv with h2 | h2
        · exact (hco c h).2 v h2 hvc
        · rw [List.mem_singleton] at h2
          rw [h2] at hvc
          exact absurd hvc hne
    · rw [List.mem_singleton] at h
      subst h
      constructor
      · rw [List.filter_append]
        have hold : db.vecChunks.filter
            (fun v => v.chunkId = (⟨db.nextId, fid, t, x, e⟩ : ChunkRow).id) = [] := by
          rw [List.filter_eq_nil_iff]
          intro v hv
          simp only [decide_eq_true_eq]
          exact Nat.ne_of_lt (hvb v hv)
        rw [hold]
        simp
      · intro v hv hvc
        rcases List.mem_append.mp hv with h2 | h2
        · exact absurd hvc (Nat.ne_of_lt (hvb v h2))
        · rw [List.mem_singleton] at h2
          rw [h2]

theorem wf_repoUpdateContent (db : DB) (hwf : WFdb db) (cid : ℕ)
    (x : String) (e : List ℕ) : WFdb (repoUpdateContent db cid x e) := by
  obtain ⟨hnd, hcb, hvb, hco⟩ := hwf
  have hid : ∀ c : ChunkRow,
      (if c.id = cid then ({ c with chunkText := x, embedding := e } : ChunkRow)
        else c).id = c.id := by
    intro c
    by_cases h : c.id = cid <;> simp [h]
  have hvid : ∀ v : VecRow,
      (if v.chunkId = cid then ({ v with embedding := e } : VecRow) else v).chunkId
        = v.chunkId := by
    intro v
    by_cases h : v.chunkId = cid <;> simp [h]
  refine ⟨?_, ?_, ?_, ?_⟩
  · simp only [repoUpdateContent, List.map_map]
    have : db.chunks.map (ChunkRow.id ∘ fun c =>
        if c.id = cid then { c with chunkText := x, embedding := e } else c) =
        db.chunks.map ChunkRow.id :=
      List.map_congr_left (fun a _ => hid a)
    rw [this]
    exact hnd
  · intro c hc
    simp only [repoUpdateContent] at hc ⊢
    rcases List.mem_map.mp hc with ⟨a, ha, rfl⟩
    rw [hid a]
    exact hcb a ha
  · intro v hv
    simp only [repoUpdateContent] at hv ⊢
    rcases List.mem_map.mp hv with ⟨w, hw, rfl⟩
    rw [hvid w]
    exact hvb w hw
  · intro c hc
    simp only [repoUpdateContent] at hc ⊢
    rcases List.mem_map.mp hc with ⟨a, ha, rfl⟩
    constructor
    · rw [List.filter_map, List.length_map]
      have : db.vecChunks.filter ((fun v => decide (v.chunkId =
          (if a.id = cid then ({ a with chunkText := x, embedding := e } : ChunkRow)
            else a).id)) ∘ fun v =>
          if v.chunkId = cid then { v with embedding := e } else v) =
          db.vecChunks.filter (fun v => v.chunkId = a.id) := by
        apply List.filter_congr
        intro v _
        simp only [Function.comp]
        rw [hid a, hvid v]
      rw [this]
      exact (hco a ha).1
    · intro v' hv' hvc
      rcases List.mem_map.mp hv' with ⟨v, hv, rfl⟩
      rw [hvid v] at hvc
      rw [hid a] at hvc
      by_cases hac : a.id = cid
      · have hvcid : v.chunkId = cid := by rw [hvc, hac]
        simp [hvcid, hac]
      · have hvcid : ¬ (v.chunkId = cid) := by rw [hvc]; exact hac
        simp only [hvcid, if_neg, hac]
        simp [hvcid, hac]
        exact (hco a ha).2 v hv hvc

theorem wf_repoDeleteWithVectors (db : DB) (hwf : WFdb db) (cid : ℕ) :
    WFdb (repoDeleteWithVectors db cid) := by
  obtain ⟨hnd, hcb, hvb, hco⟩ := hwf
  refine ⟨?_, ?_, ?_, ?_⟩
  · simp only [repoDeleteWithVectors]
    exact ((List.filter_sublist _).map ChunkRow.id).nodup hnd
  · intro c hc
    simp only [repoDeleteWithVectors] at hc ⊢
    exact hcb c (List.mem_of_mem_filter hc)
  · intro v hv
    simp only [repoDeleteWithVectors] at hv ⊢
    exact hvb v (List.mem_of_mem_filter hv)
  · intro c hc
    simp only [repoDeleteWithVectors] at hc ⊢
    have hcm := List.mem_of_mem_filter hc
    have hcne : c.id ≠ cid := by
      have := List.of_mem_filter hc
      simpa using this
    constructor
    · rw [List.filter_filter]
      have : db.vecChunks.filter (fun v =>
          decide (v.chunkId = c.id) && decide (v.chunkId ≠ cid)) =
          db.vecChunks.filter (fun v => v.chunkId = c.id) := by
        apply List.filter_congr
        intro v _
        by_cases h : v.chunkId = c.id
        · simp [h, hcne]
        · simp [h]
      rw [this]
      exact (hco c hcm).1
    · intro v hv hvc
      exact (hco c hcm).2 v (List.mem_of_mem_filter hv) hvc

theorem wf_repoDeleteByFileId (db : DB) (hwf : WFdb db) (fid : ℕ) :
    WFdb (repoDeleteByFileId db fid) := by
  obtain ⟨hnd, hcb, hvb, hco⟩ := hwf
  have hids : ∀ c ∈ db.chunks, c.fileId ≠ fid →
      ¬ c.id ∈ (db.chunks.filter (fun d => d.fileId = fid)).map ChunkRow.id := by
    intro c hc hcf hmem
    rcases List.mem_map.mp hmem with ⟨d, hd, hdid⟩
    have hdm := List.mem_of_mem_filter hd
    have hdf : d.fileId = fid := by simpa using List.of_mem_filter hd
    have : d = c := List.inj_on_of_nodup_map hnd hdm hc hdid
    rw [this] at hdf
    exact hcf hdf
  refine ⟨?_, ?_, ?_, ?_⟩
  · simp only [repoDeleteByFileId]
    exact ((List.filter_sublist _).map ChunkRow.id).nodup hnd
  · intro c hc
    simp only [repoDeleteByFileId] at hc ⊢
    exact hcb c (List.mem_of_mem_filter hc)
  · intro v hv
    simp only [repoDeleteByFileId] at hv ⊢
    exact hvb v (List.mem_of_mem_filter hv)
  · intro c hc
    simp only [repoDeleteByFileId] at hc ⊢
    have hcm := List.mem_of_mem_filter hc
    have hcf : c.fileId ≠ fid := by simpa using List.of_mem_filter hc
    constructor
    · rw [List.filter_filter]
      have : db.vecChunks.filter (fun v => decide (v.chunkId = c.id) &&
          decide (¬ v.chunkId ∈ (db.chunks.filter
            (fun d => d.fileId = fid)).map ChunkRow.id)) =
          db.vecChunks.filter (fun v => v.chunkId = c.id) := by
        apply List.filter_congr
        intro v _
        by_cases h : v.chunkId = c.id
        · have hnotin : ∀ x ∈ db.chunks, x.fileId = fid → ¬ x.id = c.id := by
            intro x hx hxf hxid
            have hxc : x = c := List.inj_on_of_nodup_map hnd hx hcm hxid
            rw [hxc] at hxf
            exact hcf hxf
          simp only [h]
          simp
          exact hnotin
        · simp [h]
      rw [this]
      exact (hco c hcm).1
    · intro v hv hvc
      exact (hco c hcm).2 v (List.mem_of_mem_filter hv) hvc

theorem repoBatchInsert_nil (db : DB) (fid : ℕ) :
    repoBatchInsert db fid [] = db := by
  simp only [repoBatchInsert, newChunkRows, newVecRows, List.append_nil,
    List.length_nil, Nat.add_zero]

theorem repoBatchInsert_cons (db : DB) (fid : ℕ) (r : BatchRow)
    (rs : List BatchRow) :
    repoBatchInsert db fid (r :: rs) =
      repoBatchInsert (repoInsert db fid r.1 r.2.1 r.2.2).1 fid rs := by
  simp only [repoBatchInsert, repoInsert, newChunkRows, newVecRows,
    List.length_cons, DB.mk.injEq, List.append_assoc, List.singleton_append,
    List.cons_append, List.nil_append]
  refine ⟨trivial, trivial, trivial, trivial, by omega⟩

theorem wf_repoBatchInsert (fid : ℕ) :
    ∀ (rows : List BatchRow) (db : DB), WFdb db →
      WFdb (repoBatchInsert db fid rows) := by
  intro rows
  induction rows with
  | nil =>
    intro db hwf
    rw [repoBatchInsert_nil]
    exact hwf
  | cons r rs ih =>
    intro db hwf
    rw [repoBatchInsert_cons]
    exact ih _ (wf_repoInsert db hwf fid r.1 r.2.1 r.2.2)

theorem wf_foldBatches (fid : ℕ) :
    ∀ (bs : List (List BatchRow)) (db : DB), WFdb db →
      WFdb (bs.foldl (fun d b => repoBatchInsert d fid b) db) := by
  intro bs
  induction bs with
  | nil => intro db hwf; exact hwf
  | cons b bs ih =>
    intro db hwf
    simp only [List.foldl_cons]
    exact ih _ (wf_repoBatchInsert fid b db hwf)

theorem wf_insertChunksBatch (db : DB) (hwf : WFdb db) (fid : ℕ)
    (chunks : List (String × String)) (embeddings : List (List ℕ)) :
    WFdb (insertChunksBatch db fid chunks embeddings) :=
  wf_foldBatches fid _ db hwf

/-- C3: every chunk-mutating repository/processor operation — single
insert, batch insert during ingest, content update, single delete,
delete-by-file — applies the matching `vec_chunks` change in the same
transaction, so from any well-formed store each of them leaves every
`chunks` row with exactly one `vec_chunks` row of the same id and identical
embedding bytes. -/
theorem claim_C3 (db : DB) (hwf : WFdb db) :
    (∀ (fid : ℕ) (t x : String) (e : List ℕ),
      Coherent (repoInsert db fid t x e).1) ∧
    (∀ (cid : ℕ) (x : String) (e : List ℕ),
      Coherent (repoUpdateContent db cid x e)) ∧
    (∀ cid : ℕ, Coherent (repoDeleteWithVectors db cid)) ∧
    (∀ fid : ℕ, Coherent (repoDeleteByFileId db fid)) ∧
    (∀ (fid : ℕ) (rows : List BatchRow),
      Coherent (repoBatchInsert db fid rows)) ∧
    (∀ (fid : ℕ) (chunks : List (String × String))
      (embeddings : List (List ℕ)),
      Coherent (insertChunksBatch db fid chunks embeddings)) :=
  ⟨fun fid t x e => (wf_repoInsert db hwf fid t x e).2.2.2,
   fun cid x e => (wf_repoUpdateContent db hwf cid x e).2.2.2,
   fun cid => (wf_repoDeleteWithVectors db hwf cid).2.2.2,
   fun fid => (wf_repoDeleteByFileId db hwf fid).2.2.2,
   fun fid rows => (wf_repoBatchInsert fid rows db hwf).2.2.2,
   fun fid chunks embeddings =>
     (wf_insertChunksBatch db hwf fid chunks embeddings).2.2.2⟩

theorem claim_C3_witness :
    WFdb dbTwoChunks ∧
    Coherent (repoInsert dbTwoChunks 1 "C" "tc" [9]).1 := by
  have hwf : WFdb dbTwoChunks := by
    unfold WFdb Coherent
    decide
  exact ⟨hwf, (claim_C3 dbTwoChunks hwf).1 1 "C" "tc" [9]⟩

/-! ### C9: delete_chunk and file lifecycle -/

theorem length_orderedInsert (le : α → α → Bool) (a : α) (l : List α) :
    (orderedInsert le a l).length = l.length + 1 := by
  induction l with
  | nil => rfl
  | cons b t ih =>
    unfold orderedInsert
    split
    · simp
    · simp [ih]

theorem length_sortBy (le : α → α → Bool) (l : List α) :
    (sortBy le l).length = l.length := by
  induction l with
  | nil => rfl
  | cons a t ih =>
    unfold sortBy
    rw [length_orderedInsert, ih, List.length_cons]

theorem find?_chunk_eq (db : DB) (hnd : (db.chunks.map ChunkRow.id).Nodup)
    {c : ChunkRow} (hc : c ∈ db.chunks) :
    db.chunks.find? (fun d => d.id = c.id) = some c := by
  rcases hf : db.chunks.find? (fun d => d.id = c.id) with _ | d
  · exfalso
    have := List.find?_eq_none.mp hf c hc
    simp at this
  · have hdm := List.mem_of_find?_eq_some hf
    have hdid : d.id = c.id := by simpa using List.find?_some hf
    rw [hf]
    exact congrArg some (List.inj_on_of_nodup_map hnd hdm hc hdid)

theorem find?_file_exists (db : DB) {fid : ℕ}
    (hfile : ∃ f ∈ db.files, f.id = fid) :
    ∃ g, db.files.find? (fun f => f.id = fid) = some g := by
  rcases hfile with ⟨f, hf, hfid⟩
  rcases hg : db.files.find? (fun f => f.id = fid) with _ | g
  · exfalso
    have := List.find?_eq_none.mp hg f hf
    simp [hfid] at this
  · exact ⟨g, hg⟩

theorem rebuildWorkingFile_fields (db : DB) (fid : ℕ) :
    (rebuildWorkingFile db fid).files = db.files ∧
    (rebuildWorkingFile db fid).chunks = db.chunks ∧
    (rebuildWorkingFile db fid).vecChunks = db.vecChunks ∧
    (rebuildWorkingFile db fid).nextId = db.nextId := by
  unfold rebuildWorkingFile setWorking
  rcases hcase : db.files.find? (fun f => f.id = fid) with _ | f <;>
    simp only [hcase]
  · exact ⟨trivial, trivial, trivial, trivial⟩
  · split <;> exact ⟨rfl, rfl, rfl, rfl⟩

theorem wf_deleteFile (db : DB) (hwf : WFdb db) (fid : ℕ) :
    WFdb (deleteFile db fid).1 := by
  unfold deleteFile
  rcases hcase : db.files.find? (fun f => f.id = fid) with _ | f <;>
    simp only [hcase]
  · exact hwf
  · exact wf_of_fields_eq rfl rfl rfl (wf_repoDeleteByFileId db hwf fid)

theorem wf_deleteChunk (db : DB) (hwf : WFdb db) (cid : ℕ) :
    WFdb (deleteChunk db cid).1 := by
  unfold deleteChunk
  rcases hcase : db.chunks.find? (fun d => d.id = cid) with _ | c <;>
    simp only [hcase]
  · exact hwf
  · split
    · exact wf_deleteFile db hwf c.fileId
    · refine wf_of_fields_eq ?_ ?_ ?_ (wf_repoDeleteWithVectors db hwf cid)
      · exact (rebuildWorkingFile_fields _ _).2.1
      · exact (rebuildWorkingFile_fields _ _).2.2.1
      · exact (rebuildWorkingFile_fields _ _).2.2.2

theorem deleteChunk_files_subset (db : DB) (cid : ℕ) :
    ∀ g ∈ (deleteChunk db cid).1.files, g ∈ db.files := by
  unfold deleteChunk
  rcases hcase : db.chunks.find? (fun d => d.id = cid) with _ | c <;>
    simp only [hcase]
  · exact fun g hg => hg
  · split
    · unfold deleteFile
      rcases hfil : db.files.find? (fun f => f.id = c.fileId) with _ | f <;>
        simp only [hfil]
      · exact fun g hg => hg
      · exact fun g hg => List.mem_of_mem_filter hg
    · intro g hg
      rw [(rebuildWorkingFile_fields _ _).1] at hg
      exact hg

theorem foldl_deleteChunk_files_subset (ids : List ℕ) :
    ∀ db : DB, ∀ g ∈ (ids.foldl (fun s i => (deleteChunk s i).1) db).files,
      g ∈ db.files := by
  induction ids with
  | nil => exact fun db g hg => hg
  | cons i ids ih =>
    intro db g hg
    simp only [List.foldl_cons] at hg
    exact deleteChunk_files_subset db i g (ih _ g hg)

/-- The last-chunk branch of `delete_chunk`: the whole file goes. -/
theorem deleteChunk_last (db : DB) (c : ChunkRow)
    (hfind : db.chunks.find? (fun d => d.id = c.id) = some c)
    (hfile : ∃ f ∈ db.files, f.id = c.fileId)
    (hcount : (db.chunks.filter (fun d => d.fileId = c.fileId)).length = 1) :
    (deleteChunk db c.id).1.files =
      db.files.filter (fun f => f.id ≠ c.fileId) ∧
    (deleteChunk db c.id).1.chunks =
      db.chunks.filter (fun d => d.fileId ≠ c.fileId) ∧
    (deleteChunk db c.id).2 = ⟨true, some c.fileId, true⟩ := by
  rcases find?_file_exists db hfile with ⟨f0, hf0⟩
  unfold deleteChunk
  rw [hfind]
  simp only
  rw [if_pos hcount]
  unfold deleteFile
  rw [hf0]
  exact ⟨rfl, rfl, rfl⟩

/-- The non-last branch of `delete_chunk`: only the chunk's rows go and
the working file is rebuilt. -/
theorem deleteChunk_not_last (db : DB) (c : ChunkRow)
    (hfind : db.chunks.find? (fun d => d.id = c.id) = some c)
    (hcount : ¬ (db.chunks.filter (fun d => d.fileId = c.fileId)).length = 1) :
    (deleteChunk db c.id).1.chunks =
      db.chunks.filter (fun d => d.id ≠ c.id) ∧
    (deleteChunk db c.id).1.vecChunks =
      db.vecChunks.filter (fun v => v.chunkId ≠ c.id) ∧
    (deleteChunk db c.id).1.files = db.files ∧
    (deleteChunk db c.id).2 = ⟨true, some c.fileId, false⟩ := by
  unfold deleteChunk
  rw [hfind]
  simp only
  rw [if_neg hcount]
  exact ⟨(rebuildWorkingFile_fields _ _).2.1,
    (rebuildWorkingFile_fields _ _).2.2.1,
    (rebuildWorkingFile_fields _ _).1, rfl⟩

theorem lookupWorking_setWorking (db : DB) (fid : ℕ) (s : String) :
    lookupWorking (setWorking db fid s) fid = some s := by
  unfold lookupWorking setWorking
  simp only
  rw [List.find?_append]
  have h1 : (db.working.filter (fun w => w.1 ≠ fid)).find?
      (fun w => w.1 = fid) = none := by
    rw [List.find?_eq_none]
    intro x hx
    have := List.of_mem_filter hx
    simpa using this
  rw [h1]
  simp

/-- The rebuilt working copy after a non-last chunk deletion renders the
remaining chunks in id order. -/
theorem deleteChunk_not_last_working (db : DB) (c : ChunkRow)
    (hfind : db.chunks.find? (fun d => d.id = c.id) = some c)
    (hcount : ¬ (db.chunks.filter (fun d => d.fileId = c.fileId)).length = 1)
    (hfile : ∃ f ∈ db.files, f.id = c.fileId)
    (hsecond : ∃ d ∈ db.chunks, d.fileId = c.fileId ∧ d.id ≠ c.id) :
    lookupWorking (deleteChunk db c.id).1 c.fileId =
      some (String.join
        ((chunksOfFileOrdered (deleteChunk db c.id).1 c.fileId).map
          renderChunkLines)) := by
  rcases find?_file_exists db hfile with ⟨f0, hf0⟩
  rcases hsecond with ⟨d, hd, hdf, hdne⟩
  unfold deleteChunk
  rw [hfind]
  simp only
  rw [if_neg hcount]
  generalize hdb' : ({ db with
      chunks := db.chunks.filter (fun c2 => c2.id ≠ c.id),
      vecChunks := db.vecChunks.filter (fun v => v.chunkId ≠ c.id) } : DB) = db'
  have hd' : d ∈ chunksOfFileOrdered db' c.fileId := by
    unfold chunksOfFileOrdered
    rw [mem_sortBy]
    rw [← hdb']
    simp only
    exact List.mem_filter.mpr
      ⟨List.mem_filter.mpr ⟨hd, by simp [hdne]⟩, by simp [hdf]⟩
  have hcs : ¬ chunksOfFileOrdered db' c.fileId = [] :=
    List.ne_nil_of_mem hd'
  have hfiles' : db'.files = db.files := by rw [← hdb']
  unfold rebuildWorkingFile
  rw [hfiles', hf0]
  simp only
  rw [if_neg hcs]
  exact lookupWorking_setWorking db' c.fileId _

/-- A file with at least two chunks keeps a chunk after one of its chunk
ids is removed. -/
theorem second_chunk_exists (db : DB)
    (hnd : (db.chunks.map ChunkRow.id).Nodup) (fid cid : ℕ)
    (hlen : 2 ≤ (db.chunks.filter (fun d => d.fileId = fid)).length) :
    ∃ d ∈ db.chunks, d.fileId = fid ∧ d.id ≠ cid := by
  rcases hl : db.chunks.filter (fun d => d.fileId = fid) with _ | ⟨a, _ | ⟨b, t⟩⟩
  · rw [hl] at hlen; simp at hlen
  · rw [hl] at hlen; simp at hlen
  · have ha : a ∈ db.chunks.filter (fun d => d.fileId = fid) := by
      rw [hl]; exact List.mem_cons_self _ _
    have hb : b ∈ db.chunks.filter (fun d => d.fileId = fid) := by
      rw [hl]; exact List.mem_cons_of_mem _ (List.mem_cons_self _ _)
    have ham := List.mem_of_mem_filter ha
    have hbm := List.mem_of_mem_filter hb
    have haf : a.fileId = fid := by simpa using List.of_mem_filter ha
    have hbf : b.fileId = fid := by simpa using List.of_mem_filter hb
    have hfnd : ((db.chunks.filter (fun d => d.fileId = fid)).map
        ChunkRow.id).Nodup :=
      ((List.filter_sublist _).map ChunkRow.id).nodup hnd
    have hab : a.id ≠ b.id := by
      rw [hl] at hfnd
      simp only [List.map_cons, List.nodup_cons] at hfnd
      intro h
      exact hfnd.1 (by rw [h]; exact List.mem_cons_self _ _)
    by_cases hac : a.id = cid
    · refine ⟨b, hbm, hbf, ?_⟩
      rw [← hac]
      exact fun h => hab h.symm
    · exact ⟨a, ham, haf, hac⟩

theorem deleteAll_removes_file (fid : ℕ) :
    ∀ (ids : List ℕ) (db : DB), WFdb db → ids.Nodup →
      (∀ i ∈ ids, ∃ d ∈ db.chunks, d.fileId = fid ∧ d.id = i) →
      (∀ d ∈ db.chunks, d.fileId = fid → d.id ∈ ids) →
      (∃ f ∈ db.files, f.id = fid) →
      (∃ d ∈ db.chunks, d.fileId = fid) →
      ∀ g ∈ (ids.foldl (fun s i => (deleteChunk s i).1) db).files,
        g.id ≠ fid := by
  intro ids
  induction ids with
  | nil =>
    intro db hwf _ _ hcover _ hne
    rcases hne with ⟨d, hd, hdf⟩
    exact absurd (hcover d hd hdf) (List.not_mem_nil d.id)
  | cons i ids ih =>
    intro db hwf hnodup hsub hcover hfile hne
    simp only [List.foldl_cons]
    rcases hsub i (List.mem_cons_self i ids) with ⟨c, hc, hcf, hcid⟩
    subst hcid
    have hfind := find?_chunk_eq db hwf.1 hc
    have hfile' : ∃ f ∈ db.files, f.id = c.fileId := hcf ▸ hfile
    by_cases hcount :
        (db.chunks.filter (fun d => d.fileId = c.fileId)).length = 1
    · intro g hg hgid
      have hg0 := foldl_deleteChunk_files_subset ids _ g hg
      have hdel := (deleteChunk_last db c hfind hfile' hcount).1
      rw [hdel] at hg0
      have := List.of_mem_filter hg0
      rw [hcf] at this
      simp [hgid] at this
    · have hlen2 : 2 ≤ (db.chunks.filter
          (fun d => d.fileId = c.fileId)).length := by
        have hpos : c ∈ db.chunks.filter (fun d => d.fileId = c.fileId) :=
          List.mem_filter.mpr ⟨hc, by simp [hcf]⟩
        have := List.length_pos.mpr (List.ne_nil_of_mem hpos)
        omega
      obtain ⟨hchunks1, _, hfiles1, _⟩ := deleteChunk_not_last db c hfind hcount
      have hwf1 := wf_deleteChunk db hwf c.id
      have hnodup1 : ids.Nodup := (List.nodup_cons.mp hnodup).2
      have hinotin : ¬ c.id ∈ ids := (List.nodup_cons.mp hnodup).1
      apply ih (deleteChunk db c.id).1 hwf1 hnodup1
      · intro j hj
        rcases hsub j (List.mem_cons_of_mem _ hj) with ⟨d, hd, hdf, hdid⟩
        refine ⟨d, ?_, hdf, hdid⟩
        rw [hchunks1]
        refine List.mem_filter.mpr ⟨hd, ?_⟩
        simp only [decide_eq_true_eq]
        rw [hdid]
        intro h
        rw [h] at hj
        exact hinotin hj
      · intro d hd hdf
        rw [hchunks1] at hd
        have hdm := List.mem_of_mem_filter hd
        have hdne : ¬ d.id = c.id := by simpa using List.of_mem_filter hd
        have := hcover d hdm hdf
        rcases List.mem_cons.mp this with h | h
        · exact absurd h hdne
        · exact h
      · rw [hfiles1]
        exact hcf ▸ hfile
      · rcases second_chunk_exists db hwf.1 c.fileId c.id
            (hcf ▸ hlen2) with ⟨d, hd, hdf, hdne⟩
        refine ⟨d, ?_, hcf ▸ hdf⟩
        rw [hchunks1]
        exact List.mem_filter.mpr ⟨hd, by simp [hdne]⟩

/-- C9: deleting the sole remaining chunk of a file deletes the entire
file (`file_deleted = true`); deleting a chunk whose file has more than
one chunk removes only that chunk's `chunks` and `vec_chunks` rows, keeps
the file and rebuilds its working copy from the remaining chunks in id
order; consequently, deleting every chunk of an ingested file deletes the
file. -/
theorem claim_C9 (db : DB) (hwf : WFdb db) (c : ChunkRow)
    (hc : c ∈ db.chunks) (hfile : ∃ f ∈ db.files, f.id = c.fileId) :
    ((db.chunks.filter (fun d => d.fileId = c.fileId)).length = 1 →
      (deleteChunk db c.id).2 = ⟨true, some c.fileId, true⟩ ∧
      (∀ g ∈ (deleteChunk db c.id).1.files, g.id ≠ c.fileId) ∧
      (∀ d ∈ (deleteChunk db c.id).1.chunks, d.fileId ≠ c.fileId)) ∧
    (2 ≤ (db.chunks.filter (fun d => d.fileId = c.fileId)).length →
      (deleteChunk db c.id).2 = ⟨true, some c.fileId, false⟩ ∧
      (deleteChunk db c.id).1.chunks =
        db.chunks.filter (fun d => d.id ≠ c.id) ∧
      (deleteChunk db c.id).1.vecChunks =
        db.vecChunks.filter (fun v => v.chunkId ≠ c.id) ∧
      (deleteChunk db c.id).1.files = db.files ∧
      lookupWorking (deleteChunk db c.id).1 c.fileId =
        some (String.join
          ((chunksOfFileOrdered (deleteChunk db c.id).1 c.fileId).map
            renderChunkLines))) ∧
    (∀ g ∈ (((db.chunks.filter (fun d => d.fileId = c.fileId)).map
        ChunkRow.id).foldl (fun s i => (deleteChunk s i).1) db).files,
      g.id ≠ c.fileId) := by
  have hfind := find?_chunk_eq db hwf.1 hc
  refine ⟨?_, ?_, ?_⟩
  · intro hcount
    obtain ⟨hfiles, hchunks, hres⟩ := deleteChunk_last db c hfind hfile hcount
    refine ⟨hres, ?_, ?_⟩
    · intro g hg
      rw [hfiles] at hg
      simpa using List.of_mem_filter hg
    · intro d hd
      rw [hchunks] at hd
      simpa using List.of_mem_filter hd
  · intro hlen2
    have hcount : ¬ (db.chunks.filter
        (fun d => d.fileId = c.fileId)).length = 1 := by omega
    obtain ⟨hchunks, hvec, hfiles, hres⟩ := deleteChunk_not_last db c hfind hcount
    have hsecond := second_chunk_exists db hwf.1 c.fileId c.id hlen2
    exact ⟨hres, hchunks, hvec, hfiles,
      deleteChunk_not_last_working db c hfind hcount hfile hsecond⟩
  · apply deleteAll_removes_file c.fileId _ db hwf
    · exact ((List.filter_sublist _).map ChunkRow.id).nodup hwf.1
    · intro j hj
      rcases List.mem_map.mp hj with ⟨d, hd, hdid⟩
      exact ⟨d, List.mem_of_mem_filter hd,
        by simpa using List.of_mem_filter hd, hdid⟩
    · intro d hd hdf
      exact List.mem_map.mpr ⟨d, List.mem_filter.mpr ⟨hd, by simp [hdf]⟩, rfl⟩
    · exact hfile
    · exact ⟨c, hc, rfl⟩

theorem claim_C9_witness :
    WFdb dbOneChunk ∧
    (⟨1, 1, "T", "tx", [4]⟩ : ChunkRow) ∈ dbOneChunk.chunks ∧
    (deleteChunk dbOneChunk 1).2 = ⟨true, some 1, true⟩ ∧
    (∀ g ∈ (deleteChunk dbOneChunk 1).1.files, g.id ≠ 1) := by
  have hwf : WFdb dbOneChunk := by
    unfold WFdb Coherent
    decide
  have h := claim_C9 dbOneChunk hwf ⟨1, 1, "T", "tx", [4]⟩ (by decide)
    ⟨⟨1, "g.md"⟩, by decide, by decide⟩
  have h1 := h.1 (by decide)
  exact ⟨hwf, by decide, h1.1, h1.2.1⟩

/-! ### C8: heading chunker -/

/-- C8: when the content has at least one `## ` heading line, the chunker
emits first the `<base>_概述` chunk holding the stripped text before the
first `##` (omitted when that text is empty or the first match starts the
content), followed by the per-section chunks in document order; every h2
section whose stripped text is non-empty and at most 2000 characters
yields exactly one chunk titled `<base>_<cleaned heading>` whose text is
the stripped section including its heading line. -/
theorem claim_C8 (content : List Char) (base : String) (hd : HMatch)
    (tl : List HMatch) (hms : scanHeadings content 2 = hd :: tl) :
    headingChunk content base =
      (if 0 < hd.start ∧ pyStrip (content.take hd.start) ≠ [] then
        [⟨base ++ "_概述", pyStrip (content.take hd.start)⟩] else [])
      ++ (sectionRanges (hd :: tl) content.length).flatMap
          (h2SectionChunks content base) ∧
    (∀ ss ∈ sectionRanges (hd :: tl) content.length,
      pyStrip (slice content ss.1.start ss.2) ≠ [] →
      (pyStrip (slice content ss.1.start ss.2)).length ≤ 2000 →
      h2SectionChunks content base ss =
        [⟨base ++ "_" ++ String.mk (cleanHeading ss.1.group),
          pyStrip (slice content ss.1.start ss.2)⟩]) := by
  constructor
  · unfold headingChunk
    rw [hms]
    simp only
    congr 1
    by_cases h1 : 0 < hd.start
    · by_cases h2 : pyStrip (content.take hd.start) ≠ []
      · rw [if_pos h1, if_pos h2, if_pos ⟨h1, h2⟩]
      · rw [if_pos h1, if_neg h2, if_neg (fun h => h2 h.2)]
    · rw [if_neg h1, if_neg (fun h => h1 h.1)]
  · intro ss _ hne hle
    unfold h2SectionChunks
    simp only
    rw [if_neg hne, if_neg (by omega)]

theorem claim_C8_witness :
    scanHeadings exC8 2 = [⟨7, ['A'], 11⟩] ∧
    headingChunk exC8 "foo" =
      (if 0 < (HMatch.mk 7 ['A'] 11).start ∧
          pyStrip (exC8.take (HMatch.mk 7 ['A'] 11).start) ≠ [] then
        [⟨"foo" ++ "_概述", pyStrip (exC8.take (HMatch.mk 7 ['A'] 11).start)⟩]
      else [])
      ++ (sectionRanges [⟨7, ['A'], 11⟩] exC8.length).flatMap
          (h2SectionChunks exC8 "foo") ∧
    headingChunk exC8 "foo" =
      [⟨"foo_概述", "Intro.".toList⟩, ⟨"foo_A", "## A\nbody".toList⟩] :=
  ⟨by decide,
    (claim_C8 exC8 "foo" ⟨7, ['A'], 11⟩ [] (by decide)).1,
    by decide⟩

end PieceKB